import Mathlib

/-!
# Ordered hash table (`src/part1/part1.cpp`)

A shallow embedding of the classes `Node` and `HashTable` of `part1.cpp`:
an open-addressing table with linear probing and tombstones whose slots are
also the cells of a doubly linked list ordered by recency.

Modelling choices:
* `vector<Node> hash_table` is a `List Node`; its length never changes.
* A `Node*` always points into that vector, so it is an `Option Nat`
  (`none` is `NULL`, `some i` is `&hash_table[i]`).
* `hash<string> str_hash` is a parameter `str_hash : String → Nat`.
* `int` values are `Int` (they are only stored and returned).
* Indices are `size_t` in `insert` and `remove`, modelled by `Nat`.  `get`
  keeps its index in an `int`: `getInt` models it with 32-bit wrap-around,
  and `get` is the same method with the index as a `Nat`, which is exact for
  capacities up to `INT_MAX` (theorem `getInt_eq_get`).
* The three `while` loops take a `fuel : Nat` (the number of iterations they
  may run) and yield `none` when it runs out.
* The text written on `cout` by `remove` and `get` is the `Bool` they return
  (`true` exactly when `"<key> not found"` was printed).
-/

namespace OrderedHashTable

/-- Status of each slot in the hash table (`enum Status`). -/
inductive Status where
  | EMPTY
  | FILLED
  | REMOVED
  deriving DecidableEq, Repr

/-- Class `Node`: a key-value pair, its status and the list links.  The field
`value` is not initialised by the C++ constructor; it is `0` here. -/
structure Node where
  next : Option Nat := none
  prev : Option Nat := none
  key : String := ""
  value : Int := 0
  status : Status := Status.EMPTY
  deriving DecidableEq, Repr

namespace Node

/-- `Node::set_key_value`. -/
def set_key_value (n : Node) (key : String) (value : Int) : Node :=
  { n with key := key, value := value, status := Status.FILLED }

/-- `Node::remove`. -/
def remove (n : Node) : Node :=
  { n with status := Status.REMOVED, key := "", value := 0, next := none, prev := none }

/-- `Node::get_key_value`. -/
def get_key_value (n : Node) : String × Int := (n.key, n.value)

/-- `Node::set_next`. -/
def set_next (n : Node) (next : Option Nat) : Node := { n with next := next }

/-- `Node::set_prev`. -/
def set_prev (n : Node) (prev : Option Nat) : Node := { n with prev := prev }

end Node

/-- Class `HashTable` (the hash function is passed to the operations). -/
structure HashTable where
  hash_table : List Node
  head : Option Nat := none
  tail : Option Nat := none
  deriving DecidableEq, Repr

namespace HashTable

/-- Constructor `HashTable(size)`: `size` empty nodes, no head, no tail. -/
def new (size : Nat) : HashTable :=
  { hash_table := List.replicate size {}, head := none, tail := none }

/-- The expression `this->hash_table.size()`. -/
def size (t : HashTable) : Nat := t.hash_table.length

/-- The expression `this->hash_table[i]` (read). -/
def node (t : HashTable) (i : Nat) : Node := t.hash_table.getD i {}

/-- A method call on `this->hash_table[i]` that mutates the node. -/
def modify (t : HashTable) (i : Nat) (f : Node → Node) : HashTable :=
  { t with hash_table := t.hash_table.set i (f (t.node i)) }

/-- The assignment `this->head = p`. -/
def setHead (t : HashTable) (p : Option Nat) : HashTable := { t with head := p }

/-- The assignment `this->tail = p`. -/
def setTail (t : HashTable) (p : Option Nat) : HashTable := { t with tail := p }

/-- A guarded call through a pointer, `if (p) p->f(...)`. -/
def modifyPtr (t : HashTable) (p : Option Nat) (f : Node → Node) : HashTable :=
  match p with
  | some i => t.modify i f
  | none => t

/-- Lines 99-112 of `insert`: the slot `idx` holds the key; it is unlinked,
rewritten and linked again in front of `head`. -/
def updateAt (t : HashTable) (idx : Nat) (key : String) (value : Int) : HashTable :=
  let next := (t.node idx).next
  let prev := (t.node idx).prev
  let t := t.modifyPtr next (fun n => n.set_prev prev)
  let t := t.modifyPtr prev (fun n => n.set_next next)
  let t := if some idx = t.head then t.setHead next else t
  let t := if some idx = t.tail then t.setTail prev else t
  let t := t.modify idx (fun n => n.set_key_value key value)
  let t := t.modify idx (fun n => n.set_prev none)
  let t := t.modify idx (fun n => n.set_next t.head)
  let t := t.modifyPtr t.head (fun n => n.set_prev (some idx))
  let t := t.setHead (some idx)
  if t.tail = none then t.setTail (some idx) else t

/-- Lines 120-125 of `insert`: the pair is written into `slot`, which is
linked in front of `head`. -/
def insertAt (t : HashTable) (slot : Nat) (key : String) (value : Int) : HashTable :=
  let t := t.modify slot (fun n => n.set_key_value key value)
  let t := t.modify slot (fun n => n.set_prev none)
  let t := t.modify slot (fun n => n.set_next t.head)
  let t := t.modifyPtr t.head (fun n => n.set_prev (some slot))
  let t := t.setHead (some slot)
  if t.tail = none then t.setTail (some slot) else t

/-- The `while (true)` loop of `insert` (lines 92-116) followed by the
insertion of lines 119-125, started at `idx` with `first_removed`. -/
def insertLoop (t : HashTable) (key : String) (value : Int) :
    Nat → Nat → Nat → Option HashTable
  | 0, _, _ => none
  | fuel + 1, idx, first_removed =>
    let s := (t.node idx).status
    if s = Status.EMPTY then
      let slot := if first_removed ≠ t.size then first_removed else idx
      some (t.insertAt slot key value)
    else if s = Status.REMOVED then
      insertLoop t key value fuel ((idx + 1) % t.size)
        (if first_removed = t.size then idx else first_removed)
    else if (t.node idx).key = key then
      some (t.updateAt idx key value)
    else
      insertLoop t key value fuel ((idx + 1) % t.size) first_removed

/-- Method `HashTable::insert`. -/
def insert (str_hash : String → Nat) (fuel : Nat) (t : HashTable) (key : String)
    (value : Int) : Option HashTable :=
  t.insertLoop key value fuel (str_hash key % t.size) t.size

/-- The loop `while (hash_table[idx].get_key() != key &&
hash_table[idx].get_status() != EMPTY) idx = (idx+1) % size`, which `remove`
(lines 130-131) and `get` (lines 146-147) both run; the result is the final
`idx`. -/
def searchLoop (t : HashTable) (key : String) : Nat → Nat → Option Nat
  | 0, _ => none
  | fuel + 1, idx =>
    if (t.node idx).key ≠ key ∧ (t.node idx).status ≠ Status.EMPTY then
      searchLoop t key fuel ((idx + 1) % t.size)
    else some idx

/-- Lines 132-141 of `remove`, with `idx` the slot the search stopped at. -/
def removeAt (t : HashTable) (idx : Nat) : HashTable × Bool :=
  if (t.node idx).status = Status.EMPTY then (t, true)
  else
    let next := (t.node idx).next
    let prev := (t.node idx).prev
    let t := match prev with
      | some p => t.modify p (fun n => n.set_next next)
      | none => t.setHead next
    let t := match next with
      | some n => t.modify n (fun m => m.set_prev prev)
      | none => t.setTail prev
    (t.modify idx Node.remove, false)

/-- Method `HashTable::remove`; the `Bool` says whether `"<key> not found"`
was printed. -/
def remove (str_hash : String → Nat) (fuel : Nat) (t : HashTable) (key : String) :
    Option (HashTable × Bool) :=
  (t.searchLoop key fuel (str_hash key % t.size)).map t.removeAt

/-- Lines 148-152 of `get`, with `idx` the slot the search stopped at. -/
def getAt (t : HashTable) (idx : Nat) : Int × Bool :=
  if (t.node idx).status = Status.EMPTY then (-1, true)
  else ((t.node idx).value, false)

/-- Method `HashTable::get` with its index as a natural number: the returned
`int`, and whether `"<key> not found"` was printed.  The source keeps `idx`
in an `int`; `getInt` below models that, and agrees with `get` whenever the
capacity is at most `INT_MAX` (theorem `getInt_eq_get`). -/
def get (str_hash : String → Nat) (fuel : Nat) (t : HashTable) (key : String) :
    Option (Int × Bool) :=
  (t.searchLoop key fuel (str_hash key % t.size)).map t.getAt

/-- The largest `int` (32 bits). -/
def INT_MAX : Nat := 2147483647

/-- Conversion of an integer to `int`: 32 bits, two's complement, wrapping
(what the conversion from `size_t` does, and what signed overflow does on the
usual targets). -/
def toInt32 (n : Int) : Int := (n + 2147483648) % 4294967296 - 2147483648

/-- Conversion of an `int` to `size_t` (64 bits): reduction modulo `2^64`, as
done when an `int` indexes the vector or meets a `size_t` in `%`. -/
def toSizeT (i : Int) : Nat := (i % 18446744073709551616).toNat

/-- The statement `idx = (idx+1) % this->hash_table.size()` of `get` (line
147): `idx + 1` is computed in `int`, converted to `size_t` for `%`, and the
result is converted back to `int`. -/
def nextInt (t : HashTable) (idx : Int) : Int :=
  toInt32 ((toSizeT (toInt32 (idx + 1)) % t.size : Nat) : Int)

/-- The `while` loop of `get` (lines 146-147) with `idx` an `int`; the slot
read is `hash_table[idx]`, at index `toSizeT idx`.  A read outside the vector
is undefined in the source; here it yields an empty node. -/
def getIntLoop (t : HashTable) (key : String) : Nat → Int → Option Int
  | 0, _ => none
  | fuel + 1, idx =>
    if (t.node (toSizeT idx)).key ≠ key ∧ (t.node (toSizeT idx)).status ≠ Status.EMPTY then
      getIntLoop t key fuel (t.nextInt idx)
    else some idx

/-- The indices at which the loop of `get` reads the vector, in order, with
`idx` an `int`; `none` when the fuel runs out. -/
def getIntReads (t : HashTable) (key : String) : Nat → Int → Option (List Nat)
  | 0, _ => none
  | fuel + 1, idx =>
    if (t.node (toSizeT idx)).key ≠ key ∧ (t.node (toSizeT idx)).status ≠ Status.EMPTY then
      (getIntReads t key fuel (t.nextInt idx)).map (fun rs => toSizeT idx :: rs)
    else some [toSizeT idx]

/-- Method `HashTable::get` with `int idx` as in the source (line 145:
`int idx = str_hash(key) % this->hash_table.size()`). -/
def getInt (str_hash : String → Nat) (fuel : Nat) (t : HashTable) (key : String) :
    Option (Int × Bool) :=
  (t.getIntLoop key fuel (toInt32 ((str_hash key % t.size : Nat) : Int))).map
    (fun idx => t.getAt (toSizeT idx))

/-- Method `HashTable::get_last`. -/
def get_last (t : HashTable) : String × Int :=
  match t.head with
  | some i => (t.node i).get_key_value
  | none => ("", -1)

/-- Method `HashTable::get_first`. -/
def get_first (t : HashTable) : String × Int :=
  match t.tail with
  | some i => (t.node i).get_key_value
  | none => ("", -1)

/-! ### The two halves of the relinking code -/

/-- Lines 99-105 of `insert`: the slot `idx` is taken out of the chain. -/
def unlink (t : HashTable) (idx : Nat) : HashTable :=
  let next := (t.node idx).next
  let prev := (t.node idx).prev
  let t := t.modifyPtr next (fun n => n.set_prev prev)
  let t := t.modifyPtr prev (fun n => n.set_next next)
  let t := if some idx = t.head then t.setHead next else t
  if some idx = t.tail then t.setTail prev else t

/-- Lines 107-111 and 121-125 of `insert`: `slot` is put in front of `head`. -/
def linkFront (t : HashTable) (slot : Nat) : HashTable :=
  let t := t.modify slot (fun n => n.set_prev none)
  let t := t.modify slot (fun n => n.set_next t.head)
  let t := t.modifyPtr t.head (fun n => n.set_prev (some slot))
  let t := t.setHead (some slot)
  if t.tail = none then t.setTail (some slot) else t

/-! ### Vocabulary of the specification -/

/-- Some slot of the table is EMPTY. -/
def hasEmpty (t : HashTable) : Prop :=
  ∃ i, i < t.size ∧ (t.node i).status = Status.EMPTY

/-- Slot `i` is FILLED and holds `key`. -/
def holdsAt (t : HashTable) (i : Nat) (key : String) : Prop :=
  i < t.size ∧ (t.node i).status = Status.FILLED ∧ (t.node i).key = key

/-- The pair `(key, value)` is live: some FILLED slot stores it. -/
def live (t : HashTable) (key : String) (value : Int) : Prop :=
  ∃ i, t.holdsAt i key ∧ (t.node i).value = value

/-- The number of live entries (FILLED slots). -/
def liveCount (t : HashTable) : Nat :=
  ((List.range t.size).filter (fun i => (t.node i).status = Status.FILLED)).length

/-- The number of slots that are not EMPTY. -/
def used (t : HashTable) : Nat :=
  ((List.range t.size).filter (fun i => (t.node i).status ≠ Status.EMPTY)).length

/-- The `d`-th index of the linear probe sequence of `key`:
`str_hash(key) % size`, `+1`, `+2`, ... modulo `size`. -/
def probe (str_hash : String → Nat) (t : HashTable) (key : String) (d : Nat) : Nat :=
  (str_hash key + d) % t.size

/-- States reachable from a fresh table of capacity `C > 0` by terminating
`insert` calls whose key satisfies `pi` and terminating `remove` calls whose
key satisfies `pr`. -/
inductive ReachableBy (str_hash : String → Nat) (C : Nat) (pi pr : String → Prop) :
    HashTable → Prop where
  | fresh : 0 < C → ReachableBy str_hash C pi pr (HashTable.new C)
  | insert {t t' : HashTable} (fuel : Nat) (key : String) (value : Int) :
      pi key → ReachableBy str_hash C pi pr t →
      t.insert str_hash fuel key value = some t' → ReachableBy str_hash C pi pr t'
  | remove {t t' : HashTable} {b : Bool} (fuel : Nat) (key : String) :
      pr key → ReachableBy str_hash C pi pr t →
      t.remove str_hash fuel key = some (t', b) → ReachableBy str_hash C pi pr t'

/-- Reachable by `insert` and `remove` calls with any keys. -/
def Reachable (str_hash : String → Nat) (C : Nat) (t : HashTable) : Prop :=
  ReachableBy str_hash C (fun _ => True) (fun _ => True) t

/-- Reachable by `insert` and `remove` calls with non-empty keys only. -/
def ReachableNE (str_hash : String → Nat) (C : Nat) (t : HashTable) : Prop :=
  ReachableBy str_hash C (fun k => k ≠ "") (fun k => k ≠ "") t

/-- The test that ends the `while` loop of `remove` and `get` at slot `x`. -/
def searchStop (t : HashTable) (key : String) (x : Nat) : Prop :=
  (t.node x).key = key ∨ (t.node x).status = Status.EMPTY

/-- The test that ends the `while (true)` loop of `insert` at slot `x`: the
`break` on EMPTY or the `return` on a FILLED slot with the key. -/
def insertStop (t : HashTable) (key : String) (x : Nat) : Prop :=
  (t.node x).status = Status.EMPTY ∨
    ((t.node x).status = Status.FILLED ∧ (t.node x).key = key)

/-- Slot `s` is the insertion point of a key that is not live: the first
REMOVED slot the probe sequence meets before its first EMPTY slot, or else
that first EMPTY slot. -/
def InsertionPoint (str_hash : String → Nat) (t : HashTable) (key : String) (s : Nat) :
    Prop :=
  ∃ n e, e ≤ n ∧ s = t.probe str_hash key e ∧
    (t.node (t.probe str_hash key n)).status = Status.EMPTY ∧
    (∀ m, m < n → (t.node (t.probe str_hash key m)).status ≠ Status.EMPTY) ∧
    (∀ m, m < e → (t.node (t.probe str_hash key m)).status ≠ Status.REMOVED) ∧
    (e < n → (t.node (t.probe str_hash key e)).status = Status.REMOVED)

/-! ### Invariants -/

/-- The index part of the representation invariant: it speaks of statuses and
keys only, never of the list links. -/
structure IndexInv (str_hash : String → Nat) (C : Nat) (t : HashTable) : Prop where
  size_eq : t.size = C
  pos : 0 < C
  /-- Every FILLED slot is met by the probe sequence of its key before any
  EMPTY slot. -/
  probe_ok : ∀ i, i < C → (t.node i).status = Status.FILLED →
    ∃ d, d < C ∧ t.probe str_hash (t.node i).key d = i ∧
      ∀ e, e < d → (t.node (t.probe str_hash (t.node i).key e)).status ≠ Status.EMPTY
  /-- No two FILLED slots hold the same key. -/
  uniq : ∀ i j, i < C → j < C → (t.node i).status = Status.FILLED →
    (t.node j).status = Status.FILLED → (t.node i).key = (t.node j).key → i = j
  /-- A slot that is not FILLED has the empty key. -/
  blank : ∀ i, (t.node i).status ≠ Status.FILLED → (t.node i).key = ""

/-- Successor of `i` in the list `c`. -/
def nextOf : List Nat → Nat → Option Nat
  | [], _ => none
  | a :: l, i => if i = a then l.head? else nextOf l i

/-- Predecessor of `i` in the duplicate-free list `c`. -/
def prevOf : List Nat → Nat → Option Nat
  | [], _ => none
  | a :: l, i => if l.head? = some i then some a else prevOf l i

/-- The list part of the representation invariant: `c` lists the indices of
the chain from `head` (most recent) to `tail` (least recent). -/
structure Links (t : HashTable) (c : List Nat) : Prop where
  nodup : c.Nodup
  head_eq : t.head = c.head?
  tail_eq : t.tail = c.getLast?
  lt_size : ∀ i, i ∈ c → i < t.size
  next_eq : ∀ i, i ∈ c → (t.node i).next = nextOf c i
  prev_eq : ∀ i, i ∈ c → (t.node i).prev = prevOf c i

/-- The chain `c` consists of exactly the FILLED slots. -/
def Covers (t : HashTable) (c : List Nat) : Prop :=
  ∀ i, i ∈ c ↔ i < t.size ∧ (t.node i).status = Status.FILLED

/-- The key-value pairs met along the chain `c`. -/
def pairs (t : HashTable) (c : List Nat) : List (String × Int) :=
  c.map (fun i => (t.node i).get_key_value)

/-- The full representation invariant, with the chain `c` as a witness. -/
structure RepInv (str_hash : String → Nat) (C : Nat) (t : HashTable) (c : List Nat) :
    Prop where
  index : IndexInv str_hash C t
  links : Links t c
  covers : Covers t c

/-- The slots met following `next` from the pointer `p`, at most `fuel` of
them; the walk stops at `NULL`. -/
def walk (t : HashTable) : Nat → Option Nat → List Nat
  | 0, _ => []
  | _ + 1, none => []
  | fuel + 1, some i => i :: walk t fuel (t.node i).next

/-- The slots met following `next` from `head`. -/
def chain (t : HashTable) : List Nat := t.walk t.size t.head

/-- The indices `idx` at which the loop of `remove` and `get` (lines 130-131
and 146-147) reads `hash_table[idx]`, in order; `none` when the fuel runs
out.  The index read after the loop is the last one of the list. -/
def searchReads (t : HashTable) (key : String) : Nat → Nat → Option (List Nat)
  | 0, _ => none
  | fuel + 1, idx =>
    if (t.node idx).key ≠ key ∧ (t.node idx).status ≠ Status.EMPTY then
      (searchReads t key fuel ((idx + 1) % t.size)).map (fun rs => idx :: rs)
    else some [idx]

/-- The indices `idx` at which the loop of `insert` (lines 92-116) reads
`hash_table[idx]`, in order; `none` when the fuel runs out.  The slot written
after the loop, `first_removed` or `idx`, is one of them. -/
def insertReads (t : HashTable) (key : String) : Nat → Nat → Option (List Nat)
  | 0, _ => none
  | fuel + 1, idx =>
    let s := (t.node idx).status
    if s = Status.EMPTY then some [idx]
    else if s = Status.REMOVED then
      (insertReads t key fuel ((idx + 1) % t.size)).map (fun rs => idx :: rs)
    else if (t.node idx).key = key then some [idx]
    else (insertReads t key fuel ((idx + 1) % t.size)).map (fun rs => idx :: rs)

end HashTable

/-! ### Reference model: a recency-ordered association list -/

/-- Model of `insert`: delete any pair with the key, put the new pair first. -/
def Model.insert (m : List (String × Int)) (key : String) (value : Int) :
    List (String × Int) :=
  (key, value) :: m.filter (fun p => p.1 ≠ key)

/-- Model of `remove`: delete the pair with the key. -/
def Model.remove (m : List (String × Int)) (key : String) : List (String × Int) :=
  m.filter (fun p => p.1 ≠ key)

/-- Model of `get_last`: the first pair of the list. -/
def Model.get_last (m : List (String × Int)) : String × Int :=
  m.head?.getD ("", -1)

/-- Model of `get_first`: the last pair of the list. -/
def Model.get_first (m : List (String × Int)) : String × Int :=
  m.getLast?.getD ("", -1)

/-- Model of `get`: the value of the first pair with the key, as found, or
`-1` with the not-found report. -/
def Model.get (m : List (String × Int)) (key : String) : Int × Bool :=
  match m.find? (fun p => p.1 = key) with
  | some p => (p.2, false)
  | none => (-1, true)

/-- A mutating call on the table. -/
inductive Op where
  | insert (key : String) (value : Int)
  | remove (key : String)

/-- The key a call is made with. -/
def Op.key : Op → String
  | Op.insert key _ => key
  | Op.remove key => key

/-- The number of `insert` calls in a sequence of calls. -/
def inserts : List Op → Nat
  | [] => 0
  | Op.insert _ _ :: ops => inserts ops + 1
  | Op.remove _ :: ops => inserts ops

/-- The calls of `ops` made in order on the table `t`; `none` when one of
them does not return. -/
def runOps (str_hash : String → Nat) (fuel : Nat) : List Op → HashTable → Option HashTable
  | [], t => some t
  | Op.insert key value :: ops, t =>
    (t.insert str_hash fuel key value).bind (runOps str_hash fuel ops)
  | Op.remove key :: ops, t =>
    (t.remove str_hash fuel key).bind (fun r => runOps str_hash fuel ops r.1)

/-- The calls of `ops` made in order on the reference model. -/
def Model.run : List Op → List (String × Int) → List (String × Int)
  | [], m => m
  | Op.insert key value :: ops, m => Model.run ops (Model.insert m key value)
  | Op.remove key :: ops, m => Model.run ops (Model.remove m key)

/-! ### Concrete inputs -/

/-- A hash function under which all keys collide at slot 0. -/
def zeroHash : String → Nat := fun _ => 0

/-- A hash function sending every key to `2^31`, the first value that does
not fit an `int`. -/
def bigHash : String → Nat := fun _ => 2147483648

namespace HashTable

/-! ### Reading and writing nodes -/

@[simp] theorem size_modify (t : HashTable) (i : Nat) (f : Node → Node) :
    (t.modify i f).size = t.size := by
  simp [modify, size]

@[simp] theorem head_modify (t : HashTable) (i : Nat) (f : Node → Node) :
    (t.modify i f).head = t.head := rfl

@[simp] theorem tail_modify (t : HashTable) (i : Nat) (f : Node → Node) :
    (t.modify i f).tail = t.tail := rfl

@[simp] theorem size_setHead (t : HashTable) (p : Option Nat) : (t.setHead p).size = t.size := rfl

@[simp] theorem size_setTail (t : HashTable) (p : Option Nat) : (t.setTail p).size = t.size := rfl

@[simp] theorem node_setHead (t : HashTable) (p : Option Nat) (j : Nat) :
    (t.setHead p).node j = t.node j := rfl

@[simp] theorem node_setTail (t : HashTable) (p : Option Nat) (j : Nat) :
    (t.setTail p).node j = t.node j := rfl

@[simp] theorem head_setHead (t : HashTable) (p : Option Nat) : (t.setHead p).head = p := rfl

@[simp] theorem tail_setHead (t : HashTable) (p : Option Nat) : (t.setHead p).tail = t.tail := rfl

@[simp] theorem head_setTail (t : HashTable) (p : Option Nat) : (t.setTail p).head = t.head := rfl

@[simp] theorem tail_setTail (t : HashTable) (p : Option Nat) : (t.setTail p).tail = p := rfl

@[simp] theorem size_modifyPtr (t : HashTable) (p : Option Nat) (f : Node → Node) :
    (t.modifyPtr p f).size = t.size := by
  cases p <;> simp [modifyPtr]

@[simp] theorem head_modifyPtr (t : HashTable) (p : Option Nat) (f : Node → Node) :
    (t.modifyPtr p f).head = t.head := by
  cases p <;> rfl

@[simp] theorem tail_modifyPtr (t : HashTable) (p : Option Nat) (f : Node → Node) :
    (t.modifyPtr p f).tail = t.tail := by
  cases p <;> rfl

theorem node_modify (t : HashTable) (i j : Nat) (f : Node → Node) :
    (t.modify i f).node j = if i = j ∧ j < t.size then f (t.node j) else t.node j := by
  unfold modify node size
  simp only [List.getD_eq_getElem?_getD, List.getElem?_set]
  by_cases hij : i = j
  · subst hij
    by_cases hi : i < t.hash_table.length
    · simp [hi]
    · simp [hi, List.getElem?_eq_none (Nat.le_of_not_lt hi)]
  · simp [hij]

theorem node_modify_ne (t : HashTable) (i j : Nat) (f : Node → Node) (h : j ≠ i) :
    (t.modify i f).node j = t.node j := by
  have h2 : ¬ i = j := fun e => h e.symm
  simp [node_modify, h2]

theorem node_modifyPtr (t : HashTable) (p : Option Nat) (j : Nat) (f : Node → Node) :
    (t.modifyPtr p f).node j = if p = some j ∧ j < t.size then f (t.node j) else t.node j := by
  cases p with
  | none => simp [modifyPtr]
  | some i => simp only [modifyPtr, node_modify, Option.some.injEq]

theorem node_of_size_le (t : HashTable) (i : Nat) (h : t.size ≤ i) : t.node i = {} := by
  unfold node size at *
  simp [List.getD_eq_getElem?_getD, List.getElem?_eq_none h]

theorem size_new (C : Nat) : (HashTable.new C).size = C := by
  simp [HashTable.new, size]

theorem node_new (C i : Nat) : (HashTable.new C).node i = {} := by
  unfold HashTable.new node
  simp only [List.getD_eq_getElem?_getD, List.getElem?_replicate]
  split <;> rfl

/-! ### Successors and predecessors in a duplicate-free list -/

theorem nextOf_mem {c : List Nat} {j x : Nat} (h : nextOf c j = some x) : x ∈ c := by
  induction c with
  | nil => simp [nextOf] at h
  | cons a l ih =>
    simp only [nextOf] at h
    split at h
    · cases l with
      | nil => simp at h
      | cons b r => simp at h; simp [h]
    · exact List.mem_cons_of_mem _ (ih h)

theorem prevOf_mem {c : List Nat} {j x : Nat} (h : prevOf c j = some x) : x ∈ c := by
  induction c with
  | nil => simp [prevOf] at h
  | cons a l ih =>
    simp only [prevOf] at h
    split at h
    · simp at h; simp [h]
    · exact List.mem_cons_of_mem _ (ih h)

theorem nextOf_of_not_mem {c : List Nat} {j : Nat} (h : j ∉ c) : nextOf c j = none := by
  induction c with
  | nil => rfl
  | cons a l ih =>
    simp only [List.mem_cons, not_or] at h
    simp [nextOf, h.1, ih h.2]

theorem prevOf_of_not_mem {c : List Nat} {j : Nat} (h : j ∉ c) : prevOf c j = none := by
  induction c with
  | nil => rfl
  | cons a l ih =>
    simp only [List.mem_cons, not_or] at h
    have hh : ¬ l.head? = some j := fun e => h.2 (List.mem_of_mem_head? e)
    simp [prevOf, hh, ih h.2]

theorem prevOf_head {c : List Nat} {j : Nat} (hc : c.Nodup) (h : c.head? = some j) :
    prevOf c j = none := by
  cases c with
  | nil => rfl
  | cons a l =>
    simp only [List.head?_cons, Option.some.injEq] at h
    subst h
    have ha : a ∉ l := (List.nodup_cons.mp hc).1
    have hh : ¬ l.head? = some a := fun e => ha (List.mem_of_mem_head? e)
    simp [prevOf, hh, prevOf_of_not_mem ha]

theorem nextOf_eq_some_iff {c : List Nat} (hc : c.Nodup) (i j : Nat) :
    nextOf c j = some i ↔ prevOf c i = some j := by
  induction c with
  | nil => simp [nextOf, prevOf]
  | cons a l ih =>
    have ha : a ∉ l := (List.nodup_cons.mp hc).1
    have hl : l.Nodup := (List.nodup_cons.mp hc).2
    simp only [nextOf, prevOf]
    by_cases hja : j = a
    · subst hja
      by_cases hh : l.head? = some i
      · simp [hh]
      · rw [if_pos rfl, if_neg hh]
        constructor
        · intro h; exact absurd h hh
        · intro h; exact absurd (prevOf_mem h) ha
    · by_cases hh : l.head? = some i
      · rw [if_neg hja, if_pos hh]
        constructor
        · intro h
          rw [ih hl, prevOf_head hl hh] at h
          simp at h
        · intro h; exact absurd (Option.some.inj h).symm hja
      · rw [if_neg hja, if_neg hh]
        exact ih hl

theorem head?_erase {c : List Nat} (i : Nat) :
    (c.erase i).head? = if c.head? = some i then nextOf c i else c.head? := by
  cases c with
  | nil => simp
  | cons a l =>
    by_cases h : a = i
    · subst h; simp [nextOf]
    · have h2 : ¬ i = a := fun e => h e.symm
      simp [List.erase_cons, h, nextOf, h2]

theorem nextOf_erase {c : List Nat} (hc : c.Nodup) {i j : Nat} (hji : j ≠ i) :
    nextOf (c.erase i) j = if nextOf c j = some i then nextOf c i else nextOf c j := by
  induction c with
  | nil => simp [nextOf]
  | cons a l ih =>
    have ha : a ∉ l := (List.nodup_cons.mp hc).1
    have hl : l.Nodup := (List.nodup_cons.mp hc).2
    by_cases hai : a = i
    · subst hai
      have h1 : ¬ nextOf l j = some a := fun e => ha (nextOf_mem e)
      simp [nextOf, hji, h1]
    · have hia : ¬ i = a := fun e => hai e.symm
      simp only [List.erase_cons, beq_iff_eq, hai, if_false, nextOf, hia]
      by_cases hja : j = a
      · subst hja
        simp [head?_erase]
      · simp only [hja, if_false]
        exact ih hl

theorem prevOf_erase {c : List Nat} (hc : c.Nodup) {i j : Nat} (hji : j ≠ i) :
    prevOf (c.erase i) j = if prevOf c j = some i then prevOf c i else prevOf c j := by
  induction c with
  | nil => simp [prevOf]
  | cons a l ih =>
    have ha : a ∉ l := (List.nodup_cons.mp hc).1
    have hl : l.Nodup := (List.nodup_cons.mp hc).2
    by_cases hai : a = i
    · subst hai
      have hh : ¬ l.head? = some a := fun e => ha (List.mem_of_mem_head? e)
      simp only [List.erase_cons_head, prevOf, hh, if_false, prevOf_of_not_mem ha]
      by_cases hj : l.head? = some j
      · simp [hj, prevOf_head hl hj]
      · have h1 : ¬ prevOf l j = some a := fun e => ha (prevOf_mem e)
        simp [hj, h1]
    · simp only [List.erase_cons, beq_iff_eq, hai, if_false, prevOf, head?_erase]
      have hij : ¬ some i = some j := fun e => hji (Option.some.inj e).symm
      by_cases hi : l.head? = some i
      · have hj : ¬ l.head? = some j := fun e => hij (hi.symm.trans e)
        simp only [if_pos hi, if_neg hj]
        by_cases hn : nextOf l i = some j
        · have hp : prevOf l j = some i := (nextOf_eq_some_iff hl j i).mp hn
          simp only [if_pos hn, if_pos hp]
        · have hp : ¬ prevOf l j = some i := fun e => hn ((nextOf_eq_some_iff hl j i).mpr e)
          simp only [if_neg hn, if_neg hp]
          rw [ih hl, if_neg hp]
      · simp only [if_neg hi]
        by_cases hj : l.head? = some j
        · have hai2 : ¬ some a = some i := fun e => hai (Option.some.inj e)
          simp only [if_pos hj, if_neg hai2]
        · simp only [if_neg hj]
          exact ih hl

theorem prevOf_eq_none_iff {c : List Nat} (hc : c.Nodup) {i : Nat} (hi : i ∈ c) :
    prevOf c i = none ↔ c.head? = some i := by
  refine ⟨?_, prevOf_head hc⟩
  induction c with
  | nil => simp at hi
  | cons a l ih =>
    intro h
    simp only [prevOf] at h
    by_cases hh : l.head? = some i
    · rw [if_pos hh] at h; simp at h
    · rw [if_neg hh] at h
      rcases List.mem_cons.mp hi with rfl | hil
      · rfl
      · exact absurd (ih (List.nodup_cons.mp hc).2 hil h) hh

theorem nextOf_eq_none_iff {c : List Nat} (hc : c.Nodup) {i : Nat} (hi : i ∈ c) :
    nextOf c i = none ↔ c.getLast? = some i := by
  induction c with
  | nil => simp at hi
  | cons a l ih =>
    have ha : a ∉ l := (List.nodup_cons.mp hc).1
    have hl : l.Nodup := (List.nodup_cons.mp hc).2
    cases l with
    | nil =>
      have : i = a := by simpa using hi
      subst this
      simp [nextOf]
    | cons b r =>
      rw [List.getLast?_cons_cons]
      by_cases hia : i = a
      · subst hia
        simp only [nextOf, if_true, List.head?_cons]
        constructor
        · intro h; simp at h
        · intro h; exact absurd (List.mem_of_getLast?_eq_some h) ha
      · have hil : i ∈ b :: r := by
          rcases List.mem_cons.mp hi with h | h
          · exact absurd h hia
          · exact h
        have e : nextOf (a :: b :: r) i = nextOf (b :: r) i := by
          rw [nextOf, if_neg hia]
        rw [e]
        exact ih hl hil

theorem getLast?_erase {c : List Nat} (hc : c.Nodup) (i : Nat) :
    (c.erase i).getLast? = if c.getLast? = some i then prevOf c i else c.getLast? := by
  induction c with
  | nil => simp
  | cons a l ih =>
    have ha : a ∉ l := (List.nodup_cons.mp hc).1
    have hl : l.Nodup := (List.nodup_cons.mp hc).2
    by_cases hai : a = i
    · subst hai
      rw [List.erase_cons_head]
      cases l with
      | nil => simp [prevOf]
      | cons b r =>
        rw [List.getLast?_cons_cons]
        have h1 : ¬ (b :: r).getLast? = some a :=
          fun e => ha (List.mem_of_getLast?_eq_some e)
        rw [if_neg h1]
    · have e1 : (a :: l).erase i = a :: l.erase i := by
        simp [List.erase_cons, hai]
      rw [e1, List.getLast?_cons, ih hl, List.getLast?_cons]
      by_cases hlast : l.getLast? = some i
      · have hil : i ∈ l := List.mem_of_getLast?_eq_some hlast
        have h2 : some (l.getLast?.getD a) = some i := by simp [hlast]
        rw [if_pos hlast, if_pos h2]
        simp only [prevOf]
        by_cases hh : l.head? = some i
        · rw [if_pos hh, prevOf_head hl hh]; rfl
        · rw [if_neg hh]
          cases hp : prevOf l i with
          | none => exact absurd ((prevOf_eq_none_iff hl hil).mp hp) hh
          | some x => rfl
      · rw [if_neg hlast]
        have h2 : ¬ some (l.getLast?.getD a) = some i := by
          cases hg : l.getLast? with
          | none =>
            simp only [Option.getD_none, Option.some.injEq]
            exact hai
          | some x =>
            simp only [Option.getD_some]
            intro e
            exact hlast (hg.trans e)
        rw [if_neg h2]

theorem nextOf_cons_of_ne {a j : Nat} (l : List Nat) (h : j ≠ a) :
    nextOf (a :: l) j = nextOf l j := by
  rw [nextOf, if_neg h]

theorem nextOf_cons_self (a : Nat) (l : List Nat) : nextOf (a :: l) a = l.head? := by
  rw [nextOf, if_pos rfl]

theorem prevOf_cons_self {a : Nat} {l : List Nat} (ha : a ∉ l) : prevOf (a :: l) a = none := by
  have hh : ¬ l.head? = some a := fun e => ha (List.mem_of_mem_head? e)
  rw [prevOf, if_neg hh, prevOf_of_not_mem ha]

/-! ### Pointwise description of the relinking code -/

theorem updateAt_eq (t : HashTable) (idx : Nat) (key : String) (value : Int) :
    t.updateAt idx key value =
      ((t.unlink idx).modify idx (fun n => n.set_key_value key value)).linkFront idx := rfl

theorem insertAt_eq (t : HashTable) (slot : Nat) (key : String) (value : Int) :
    t.insertAt slot key value =
      (t.modify slot (fun n => n.set_key_value key value)).linkFront slot := rfl

@[simp] theorem size_linkFront (t : HashTable) (s : Nat) : (t.linkFront s).size = t.size := by
  unfold linkFront
  simp only []
  split <;> simp

@[simp] theorem head_linkFront (t : HashTable) (s : Nat) : (t.linkFront s).head = some s := by
  unfold linkFront
  simp only []
  split <;> simp

theorem tail_linkFront (t : HashTable) (s : Nat) :
    (t.linkFront s).tail = if t.tail = none then some s else t.tail := by
  unfold linkFront
  simp only []
  split <;> simp_all

@[simp] theorem node_ite_setHead (t : HashTable) (c : Prop) [Decidable c] (p : Option Nat)
    (j : Nat) : (if c then t.setHead p else t).node j = t.node j := by
  split <;> rfl

@[simp] theorem node_ite_setTail (t : HashTable) (c : Prop) [Decidable c] (p : Option Nat)
    (j : Nat) : (if c then t.setTail p else t).node j = t.node j := by
  split <;> rfl

theorem node_linkFront (t : HashTable) (s j : Nat) :
    (t.linkFront s).node j =
      if t.head = some j ∧ j < t.size then
        (if s = j ∧ j < t.size then
          (if s = j ∧ j < t.size then (t.node j).set_prev none else t.node j).set_next t.head
        else if s = j ∧ j < t.size then (t.node j).set_prev none else t.node j).set_prev
          (some s)
      else if s = j ∧ j < t.size then
        (if s = j ∧ j < t.size then (t.node j).set_prev none else t.node j).set_next t.head
      else if s = j ∧ j < t.size then (t.node j).set_prev none else t.node j := by
  unfold linkFront
  simp only [node_ite_setTail, node_setHead, node_modifyPtr, node_modify, size_modify,
    head_modify]

theorem next_linkFront (t : HashTable) (s j : Nat) (hs : s < t.size) :
    ((t.linkFront s).node j).next = if j = s then t.head else (t.node j).next := by
  rw [node_linkFront t s j]
  by_cases hjs : j = s
  · subst hjs
    simp only [true_and, hs, if_true]
    split_ifs <;> rfl
  · have hsj : ¬ s = j := fun e => hjs e.symm
    simp only [hsj, false_and, if_false, hjs]
    split_ifs <;> rfl

theorem prev_linkFront (t : HashTable) (s j : Nat) (hs : s < t.size) (hj : j < t.size) :
    ((t.linkFront s).node j).prev =
      if t.head = some j then some s else if j = s then none else (t.node j).prev := by
  rw [node_linkFront t s j]
  simp only [hj, and_true]
  by_cases hjs : j = s
  · subst hjs
    simp only [if_true]
    split_ifs <;> rfl
  · have hsj : ¬ s = j := fun e => hjs e.symm
    simp only [hsj, if_false, hjs]
    split_ifs <;> rfl

theorem payload_linkFront (t : HashTable) (s j : Nat) :
    ((t.linkFront s).node j).status = (t.node j).status ∧
    ((t.linkFront s).node j).key = (t.node j).key ∧
    ((t.linkFront s).node j).value = (t.node j).value := by
  rw [node_linkFront t s j]
  split_ifs <;> exact ⟨rfl, rfl, rfl⟩

@[simp] theorem size_unlink (t : HashTable) (i : Nat) : (t.unlink i).size = t.size := by
  unfold unlink
  simp only []
  split_ifs <;> simp

theorem head_unlink (t : HashTable) (i : Nat) :
    (t.unlink i).head = if some i = t.head then (t.node i).next else t.head := by
  unfold unlink
  simp only []
  split_ifs <;>
    simp only [head_modifyPtr, tail_modifyPtr, head_setHead, tail_setHead, head_setTail,
      tail_setTail] at * <;>
    first | rfl | contradiction

theorem tail_unlink (t : HashTable) (i : Nat) :
    (t.unlink i).tail = if some i = t.tail then (t.node i).prev else t.tail := by
  unfold unlink
  simp only []
  split_ifs <;>
    simp only [head_modifyPtr, tail_modifyPtr, head_setHead, tail_setHead, head_setTail,
      tail_setTail] at * <;>
    first | rfl | contradiction

theorem node_unlink (t : HashTable) (i j : Nat) :
    (t.unlink i).node j =
      if (t.node i).prev = some j ∧ j < t.size then
        (if (t.node i).next = some j ∧ j < t.size then (t.node j).set_prev (t.node i).prev
          else t.node j).set_next (t.node i).next
      else if (t.node i).next = some j ∧ j < t.size then (t.node j).set_prev (t.node i).prev
      else t.node j := by
  unfold unlink
  simp only [node_ite_setHead, node_ite_setTail, node_modifyPtr, size_modifyPtr]

theorem next_unlink (t : HashTable) (i j : Nat) (hj : j < t.size) :
    ((t.unlink i).node j).next =
      if (t.node i).prev = some j then (t.node i).next else (t.node j).next := by
  rw [node_unlink]
  split_ifs <;> simp_all [Node.set_prev, Node.set_next]

theorem prev_unlink (t : HashTable) (i j : Nat) (hj : j < t.size) :
    ((t.unlink i).node j).prev =
      if (t.node i).next = some j then (t.node i).prev else (t.node j).prev := by
  rw [node_unlink]
  split_ifs <;> simp_all [Node.set_prev, Node.set_next]

theorem payload_unlink (t : HashTable) (i j : Nat) :
    ((t.unlink i).node j).status = (t.node j).status ∧
    ((t.unlink i).node j).key = (t.node j).key ∧
    ((t.unlink i).node j).value = (t.node j).value := by
  rw [node_unlink]
  split_ifs <;> simp [Node.set_prev, Node.set_next]

theorem removeAt_of_empty (t : HashTable) (i : Nat)
    (h : (t.node i).status = Status.EMPTY) : t.removeAt i = (t, true) := by
  unfold removeAt
  rw [if_pos h]

theorem removeAt_snd (t : HashTable) (i : Nat) (h : (t.node i).status ≠ Status.EMPTY) :
    (t.removeAt i).2 = false := by
  unfold removeAt
  rw [if_neg h]

@[simp] theorem size_removeAt (t : HashTable) (i : Nat) : (t.removeAt i).1.size = t.size := by
  unfold removeAt
  split
  · rfl
  · cases (t.node i).prev <;> cases (t.node i).next <;> simp

theorem head_removeAt (t : HashTable) (i : Nat) (h : (t.node i).status ≠ Status.EMPTY) :
    (t.removeAt i).1.head = if (t.node i).prev = none then (t.node i).next else t.head := by
  unfold removeAt
  rw [if_neg h]
  cases (t.node i).prev <;> cases (t.node i).next <;> simp

theorem tail_removeAt (t : HashTable) (i : Nat) (h : (t.node i).status ≠ Status.EMPTY) :
    (t.removeAt i).1.tail = if (t.node i).next = none then (t.node i).prev else t.tail := by
  unfold removeAt
  rw [if_neg h]
  cases (t.node i).prev <;> cases (t.node i).next <;> simp

theorem node_removeAt_self (t : HashTable) (i : Nat) (h : (t.node i).status ≠ Status.EMPTY)
    (hi : i < t.size) : (t.removeAt i).1.node i = { status := Status.REMOVED } := by
  unfold removeAt
  rw [if_neg h]
  cases (t.node i).prev <;> cases (t.node i).next <;> simp [node_modify, hi, Node.remove]

theorem node_removeAt_of_ne (t : HashTable) (i j : Nat)
    (h : (t.node i).status ≠ Status.EMPTY) (hji : j ≠ i) :
    (t.removeAt i).1.node j =
      if (t.node i).next = some j ∧ j < t.size then
        (if (t.node i).prev = some j ∧ j < t.size then (t.node j).set_next (t.node i).next
          else t.node j).set_prev (t.node i).prev
      else if (t.node i).prev = some j ∧ j < t.size then (t.node j).set_next (t.node i).next
      else t.node j := by
  unfold removeAt
  rw [if_neg h]
  simp only []
  rw [node_modify_ne _ _ _ _ hji]
  cases hp : (t.node i).prev <;> cases hn : (t.node i).next <;>
    simp only [node_modify, node_setHead, node_setTail, size_modify, size_setHead,
      size_setTail, Option.some.injEq, false_and, if_false, reduceCtorEq]

theorem next_removeAt (t : HashTable) (i j : Nat) (h : (t.node i).status ≠ Status.EMPTY)
    (hji : j ≠ i) (hj : j < t.size) :
    ((t.removeAt i).1.node j).next =
      if (t.node i).prev = some j then (t.node i).next else (t.node j).next := by
  rw [node_removeAt_of_ne t i j h hji]
  split_ifs <;> simp_all [Node.set_prev, Node.set_next]

theorem prev_removeAt (t : HashTable) (i j : Nat) (h : (t.node i).status ≠ Status.EMPTY)
    (hji : j ≠ i) (hj : j < t.size) :
    ((t.removeAt i).1.node j).prev =
      if (t.node i).next = some j then (t.node i).prev else (t.node j).prev := by
  rw [node_removeAt_of_ne t i j h hji]
  split_ifs <;> simp_all [Node.set_prev, Node.set_next]

theorem payload_removeAt (t : HashTable) (i j : Nat) (hji : j ≠ i) :
    ((t.removeAt i).1.node j).status = (t.node j).status ∧
    ((t.removeAt i).1.node j).key = (t.node j).key ∧
    ((t.removeAt i).1.node j).value = (t.node j).value := by
  by_cases h : (t.node i).status = Status.EMPTY
  · rw [removeAt_of_empty t i h]; exact ⟨rfl, rfl, rfl⟩
  · rw [node_removeAt_of_ne t i j h hji]
    split_ifs <;> simp [Node.set_prev, Node.set_next]

/-! ### The chain under unlinking, linking and removal -/

theorem Links.links_new (C : Nat) : Links (HashTable.new C) [] where
  nodup := List.nodup_nil
  head_eq := rfl
  tail_eq := rfl
  lt_size := by intro i hi; simp at hi
  next_eq := by intro i hi; simp at hi
  prev_eq := by intro i hi; simp at hi

theorem Links.modify_of_not_mem {t : HashTable} {c : List Nat} (h : Links t c) {i : Nat}
    (hi : i ∉ c) (f : Node → Node) : Links (t.modify i f) c where
  nodup := h.nodup
  head_eq := h.head_eq
  tail_eq := h.tail_eq
  lt_size := by intro j hj; simpa using h.lt_size j hj
  next_eq := by
    intro j hj
    have hji : j ≠ i := fun e => hi (e ▸ hj)
    rw [node_modify_ne _ _ _ _ hji]
    exact h.next_eq j hj
  prev_eq := by
    intro j hj
    have hji : j ≠ i := fun e => hi (e ▸ hj)
    rw [node_modify_ne _ _ _ _ hji]
    exact h.prev_eq j hj

theorem Links.unlink {t : HashTable} {c : List Nat} (h : Links t c) {i : Nat} (hi : i ∈ c) :
    Links (t.unlink i) (c.erase i) where
  nodup := h.nodup.erase i
  head_eq := by
    rw [head_unlink, head?_erase, h.head_eq, h.next_eq i hi]
    by_cases e : c.head? = some i
    · rw [if_pos e, if_pos e.symm]
    · rw [if_neg e, if_neg (fun e2 => e e2.symm)]
  tail_eq := by
    rw [tail_unlink, getLast?_erase h.nodup, h.tail_eq, h.prev_eq i hi]
    by_cases e : c.getLast? = some i
    · rw [if_pos e, if_pos e.symm]
    · rw [if_neg e, if_neg (fun e2 => e e2.symm)]
  lt_size := by
    intro j hj
    simpa using h.lt_size j (List.mem_of_mem_erase hj)
  next_eq := by
    intro j hj
    have hj2 := (List.Nodup.mem_erase_iff h.nodup).mp hj
    rw [next_unlink t i j (h.lt_size j hj2.2), nextOf_erase h.nodup hj2.1, h.prev_eq i hi,
      h.next_eq i hi, h.next_eq j hj2.2]
    by_cases e : nextOf c j = some i
    · rw [if_pos e, if_pos ((nextOf_eq_some_iff h.nodup i j).mp e)]
    · rw [if_neg e, if_neg (fun e2 => e ((nextOf_eq_some_iff h.nodup i j).mpr e2))]
  prev_eq := by
    intro j hj
    have hj2 := (List.Nodup.mem_erase_iff h.nodup).mp hj
    rw [prev_unlink t i j (h.lt_size j hj2.2), prevOf_erase h.nodup hj2.1, h.prev_eq i hi,
      h.next_eq i hi, h.prev_eq j hj2.2]
    by_cases e : prevOf c j = some i
    · rw [if_pos e, if_pos ((nextOf_eq_some_iff h.nodup j i).mpr e)]
    · rw [if_neg e, if_neg (fun e2 => e ((nextOf_eq_some_iff h.nodup j i).mp e2))]

theorem Links.linkFront {t : HashTable} {c : List Nat} (h : Links t c) {s : Nat}
    (hs : s ∉ c) (hlt : s < t.size) : Links (t.linkFront s) (s :: c) where
  nodup := List.nodup_cons.mpr ⟨hs, h.nodup⟩
  head_eq := by simp
  tail_eq := by
    rw [tail_linkFront, h.tail_eq, List.getLast?_cons]
    cases c.getLast? <;> simp
  lt_size := by
    intro j hj
    rw [size_linkFront]
    rcases List.mem_cons.mp hj with rfl | hjc
    · exact hlt
    · exact h.lt_size j hjc
  next_eq := by
    intro j hj
    rw [next_linkFront t s j hlt]
    by_cases e : j = s
    · subst e
      rw [if_pos rfl, nextOf_cons_self, h.head_eq]
    · rw [if_neg e, nextOf_cons_of_ne c e]
      rcases List.mem_cons.mp hj with rfl | hjc
      · exact absurd rfl e
      · exact h.next_eq j hjc
  prev_eq := by
    intro j hj
    have hjlt : j < t.size := by
      rcases List.mem_cons.mp hj with rfl | hjc
      · exact hlt
      · exact h.lt_size j hjc
    rw [prev_linkFront t s j hlt hjlt, h.head_eq]
    simp only [prevOf]
    by_cases e : c.head? = some j
    · rw [if_pos e, if_pos e]
    · rw [if_neg e, if_neg e]
      by_cases e2 : j = s
      · subst e2
        rw [if_pos rfl, prevOf_of_not_mem hs]
      · rw [if_neg e2]
        rcases List.mem_cons.mp hj with rfl | hjc
        · exact absurd rfl e2
        · exact h.prev_eq j hjc

theorem Links.links_removeAt {t : HashTable} {c : List Nat} (h : Links t c) {i : Nat} (hi : i ∈ c)
    (hne : (t.node i).status ≠ Status.EMPTY) : Links (t.removeAt i).1 (c.erase i) where
  nodup := h.nodup.erase i
  head_eq := by
    rw [head_removeAt t i hne, head?_erase, h.head_eq, h.next_eq i hi, h.prev_eq i hi]
    by_cases e : c.head? = some i
    · rw [if_pos e, if_pos ((prevOf_eq_none_iff h.nodup hi).mpr e)]
    · rw [if_neg e, if_neg (fun e2 => e ((prevOf_eq_none_iff h.nodup hi).mp e2))]
  tail_eq := by
    rw [tail_removeAt t i hne, getLast?_erase h.nodup, h.tail_eq, h.next_eq i hi,
      h.prev_eq i hi]
    by_cases e : c.getLast? = some i
    · rw [if_pos e, if_pos ((nextOf_eq_none_iff h.nodup hi).mpr e)]
    · rw [if_neg e, if_neg (fun e2 => e ((nextOf_eq_none_iff h.nodup hi).mp e2))]
  lt_size := by
    intro j hj
    simpa using h.lt_size j (List.mem_of_mem_erase hj)
  next_eq := by
    intro j hj
    have hj2 := (List.Nodup.mem_erase_iff h.nodup).mp hj
    rw [next_removeAt t i j hne hj2.1 (h.lt_size j hj2.2), nextOf_erase h.nodup hj2.1,
      h.prev_eq i hi, h.next_eq i hi, h.next_eq j hj2.2]
    by_cases e : nextOf c j = some i
    · rw [if_pos e, if_pos ((nextOf_eq_some_iff h.nodup i j).mp e)]
    · rw [if_neg e, if_neg (fun e2 => e ((nextOf_eq_some_iff h.nodup i j).mpr e2))]
  prev_eq := by
    intro j hj
    have hj2 := (List.Nodup.mem_erase_iff h.nodup).mp hj
    rw [prev_removeAt t i j hne hj2.1 (h.lt_size j hj2.2), prevOf_erase h.nodup hj2.1,
      h.prev_eq i hi, h.next_eq i hi, h.prev_eq j hj2.2]
    by_cases e : prevOf c j = some i
    · rw [if_pos e, if_pos ((nextOf_eq_some_iff h.nodup j i).mpr e)]
    · rw [if_neg e, if_neg (fun e2 => e ((nextOf_eq_some_iff h.nodup j i).mp e2))]

/-! ### The probe sequence -/

theorem exists_least (P : Nat → Prop) {e : Nat} (he : P e) :
    ∃ n, n ≤ e ∧ P n ∧ ∀ m, m < n → ¬ P m := by
  classical
  exact ⟨Nat.find ⟨e, he⟩, Nat.find_min' _ he, Nat.find_spec _,
    fun m hm => Nat.find_min _ hm⟩

theorem probe_zero (str_hash : String → Nat) (t : HashTable) (key : String) :
    t.probe str_hash key 0 = str_hash key % t.size := rfl

theorem probe_succ (str_hash : String → Nat) (t : HashTable) (key : String) (d : Nat) :
    (t.probe str_hash key d + 1) % t.size = t.probe str_hash key (d + 1) := by
  unfold probe
  rw [Nat.mod_add_mod, Nat.add_assoc]

theorem probe_lt (str_hash : String → Nat) (t : HashTable) (key : String) (d : Nat)
    (hpos : 0 < t.size) : t.probe str_hash key d < t.size :=
  Nat.mod_lt _ hpos

theorem probe_surj (str_hash : String → Nat) (t : HashTable) (key : String) {x : Nat}
    (hx : x < t.size) : ∃ d, d < t.size ∧ t.probe str_hash key d = x := by
  have hpos : 0 < t.size := Nat.lt_of_le_of_lt (Nat.zero_le _) hx
  have hlt : str_hash key % t.size < t.size := Nat.mod_lt _ hpos
  refine ⟨(x + t.size - str_hash key % t.size) % t.size, Nat.mod_lt _ hpos, ?_⟩
  unfold probe
  rw [Nat.add_mod_mod, ← Nat.mod_add_mod]
  have e : str_hash key % t.size + (x + t.size - str_hash key % t.size) = x + t.size := by
    omega
  rw [e, Nat.add_mod_right, Nat.mod_eq_of_lt hx]

/-! ### The search loop of `remove` and `get` -/

theorem searchLoop_of_stop (str_hash : String → Nat) (t : HashTable) (key : String) :
    ∀ (n d fuel : Nat),
      (∀ e, d ≤ e → e < d + n → ¬ t.searchStop key (t.probe str_hash key e)) →
      t.searchStop key (t.probe str_hash key (d + n)) → n < fuel →
      t.searchLoop key fuel (t.probe str_hash key d) = some (t.probe str_hash key (d + n)) := by
  intro n
  induction n with
  | zero =>
    intro d fuel _ hstop hfuel
    obtain ⟨f, rfl⟩ : ∃ f, fuel = f + 1 := ⟨fuel - 1, by omega⟩
    have hc : ¬ ((t.node (t.probe str_hash key d)).key ≠ key ∧
        (t.node (t.probe str_hash key d)).status ≠ Status.EMPTY) := by
      rcases hstop with h | h
      · exact fun hh => hh.1 h
      · exact fun hh => hh.2 h
    simp only [searchLoop, Nat.add_zero]
    rw [if_neg hc]
  | succ n ih =>
    intro d fuel hno hstop hfuel
    obtain ⟨f, rfl⟩ : ∃ f, fuel = f + 1 := ⟨fuel - 1, by omega⟩
    have h0 := hno d (Nat.le_refl d) (by omega)
    have hc : (t.node (t.probe str_hash key d)).key ≠ key ∧
        (t.node (t.probe str_hash key d)).status ≠ Status.EMPTY :=
      ⟨fun h => h0 (Or.inl h), fun h => h0 (Or.inr h)⟩
    simp only [searchLoop]
    rw [if_pos hc, probe_succ]
    have e : d + (n + 1) = d + 1 + n := by omega
    rw [e]
    exact ih (d + 1) f (fun e he1 he2 => hno e (by omega) (by omega)) (e ▸ hstop) (by omega)

theorem searchLoop_some (str_hash : String → Nat) (t : HashTable) (key : String) :
    ∀ (fuel d x : Nat), t.searchLoop key fuel (t.probe str_hash key d) = some x →
      ∃ n, n < fuel ∧
        (∀ e, d ≤ e → e < d + n → ¬ t.searchStop key (t.probe str_hash key e)) ∧
        t.searchStop key (t.probe str_hash key (d + n)) ∧ x = t.probe str_hash key (d + n) := by
  intro fuel
  induction fuel with
  | zero => intro d x h; simp [searchLoop] at h
  | succ f ih =>
    intro d x h
    simp only [searchLoop] at h
    by_cases hc : (t.node (t.probe str_hash key d)).key ≠ key ∧
        (t.node (t.probe str_hash key d)).status ≠ Status.EMPTY
    · rw [if_pos hc, probe_succ] at h
      obtain ⟨n, hn, hno, hstop, hx⟩ := ih (d + 1) x h
      refine ⟨n + 1, by omega, ?_, ?_, ?_⟩
      · intro e he1 he2
        by_cases hed : e = d
        · subst hed
          intro hs
          rcases hs with h1 | h1
          · exact hc.1 h1
          · exact hc.2 h1
        · exact hno e (by omega) (by omega)
      · have e : d + (n + 1) = d + 1 + n := by omega
        rw [e]; exact hstop
      · have e : d + (n + 1) = d + 1 + n := by omega
        rw [e]; exact hx
    · rw [if_neg hc] at h
      refine ⟨0, by omega, fun e he1 he2 => by omega, ?_, ?_⟩
      · by_cases hk : (t.node (t.probe str_hash key d)).key = key
        · exact Or.inl hk
        · by_cases hs : (t.node (t.probe str_hash key d)).status = Status.EMPTY
          · exact Or.inr hs
          · exact absurd ⟨hk, hs⟩ hc
      · exact (Option.some.inj h).symm

/-! ### The probing loop of `insert` -/

theorem insertLoop_some (str_hash : String → Nat) (t : HashTable) (key : String)
    (value : Int) :
    ∀ (fuel d fr : Nat) (t' : HashTable),
      t.insertLoop key value fuel (t.probe str_hash key d) fr = some t' →
      ∃ n, n < fuel ∧
        (∀ e, d ≤ e → e < d + n → ¬ t.insertStop key (t.probe str_hash key e)) ∧
        t.insertStop key (t.probe str_hash key (d + n)) := by
  intro fuel
  induction fuel with
  | zero => intro d fr t' h; simp [insertLoop] at h
  | succ f ih =>
    intro d fr t' h
    by_cases hstop : t.insertStop key (t.probe str_hash key d)
    · exact ⟨0, by omega, fun e he1 he2 => by omega, hstop⟩
    · have hE : ¬ (t.node (t.probe str_hash key d)).status = Status.EMPTY :=
        fun e => hstop (Or.inl e)
      simp only [insertLoop] at h
      rw [if_neg hE] at h
      have hrec : ∃ fr', t.insertLoop key value f (t.probe str_hash key (d + 1)) fr' =
          some t' := by
        by_cases hR : (t.node (t.probe str_hash key d)).status = Status.REMOVED
        · rw [if_pos hR, probe_succ] at h
          exact ⟨_, h⟩
        · rw [if_neg hR] at h
          have hF : (t.node (t.probe str_hash key d)).status = Status.FILLED := by
            cases hs : (t.node (t.probe str_hash key d)).status
            · exact absurd hs hE
            · rfl
            · exact absurd hs hR
          have hk : ¬ (t.node (t.probe str_hash key d)).key = key :=
            fun e => hstop (Or.inr ⟨hF, e⟩)
          rw [if_neg hk, probe_succ] at h
          exact ⟨_, h⟩
      obtain ⟨fr', h'⟩ := hrec
      obtain ⟨n, hn, hno, hs⟩ := ih (d + 1) fr' t' h'
      refine ⟨n + 1, by omega, ?_, ?_⟩
      · intro e he1 he2
        by_cases hed : e = d
        · subst hed; exact hstop
        · exact hno e (by omega) (by omega)
      · have e : d + (n + 1) = d + 1 + n := by omega
        rw [e]; exact hs

theorem insertLoop_of_stop (str_hash : String → Nat) (t : HashTable) (key : String)
    (value : Int) (hpos : 0 < t.size) :
    ∀ (n d fr fuel : Nat),
      (∀ e, d ≤ e → e < d + n → ¬ t.insertStop key (t.probe str_hash key e)) →
      t.insertStop key (t.probe str_hash key (d + n)) → n < fuel →
      ∃ t', t.insertLoop key value fuel (t.probe str_hash key d) fr = some t' ∧
        (((t.node (t.probe str_hash key (d + n))).status = Status.EMPTY ∧
            ∃ s, t' = t.insertAt s key value ∧ (fr ≠ t.size → s = fr) ∧
              (fr = t.size → ∃ e, d ≤ e ∧ e ≤ d + n ∧ s = t.probe str_hash key e ∧
                (∀ m, d ≤ m → m < e →
                  (t.node (t.probe str_hash key m)).status ≠ Status.REMOVED) ∧
                (e < d + n → (t.node (t.probe str_hash key e)).status = Status.REMOVED))) ∨
          (((t.node (t.probe str_hash key (d + n))).status = Status.FILLED ∧
              (t.node (t.probe str_hash key (d + n))).key = key) ∧
            t' = t.updateAt (t.probe str_hash key (d + n)) key value)) := by
  intro n
  induction n with
  | zero =>
    intro d fr fuel _ hstop hfuel
    obtain ⟨f, rfl⟩ : ∃ f, fuel = f + 1 := ⟨fuel - 1, by omega⟩
    simp only [insertLoop, Nat.add_zero]
    rcases hstop with hE | ⟨hF, hk⟩
    · rw [Nat.add_zero] at hE
      rw [if_pos hE]
      refine ⟨_, rfl, Or.inl ⟨hE, _, rfl, ?_, ?_⟩⟩
      · intro h; rw [if_pos h]
      · intro h
        have h2 : ¬ fr ≠ t.size := fun hh => hh h
        rw [if_neg h2]
        exact ⟨d, Nat.le_refl d, Nat.le_refl d, rfl, fun m h1 h2 => by omega,
          fun h => absurd h (Nat.lt_irrefl d)⟩
    · rw [Nat.add_zero] at hF hk
      have hE : ¬ (t.node (t.probe str_hash key d)).status = Status.EMPTY := by
        rw [hF]; exact fun h => Status.noConfusion h
      have hR : ¬ (t.node (t.probe str_hash key d)).status = Status.REMOVED := by
        rw [hF]; exact fun h => Status.noConfusion h
      rw [if_neg hE, if_neg hR, if_pos hk]
      exact ⟨_, rfl, Or.inr ⟨⟨hF, hk⟩, rfl⟩⟩
  | succ n ih =>
    intro d fr fuel hno hstop hfuel
    obtain ⟨f, rfl⟩ : ∃ f, fuel = f + 1 := ⟨fuel - 1, by omega⟩
    have h0 := hno d (Nat.le_refl d) (by omega)
    have hE : ¬ (t.node (t.probe str_hash key d)).status = Status.EMPTY :=
      fun e => h0 (Or.inl e)
    have hd : d + (n + 1) = d + 1 + n := by omega
    have hno' : ∀ e, d + 1 ≤ e → e < d + 1 + n →
        ¬ t.insertStop key (t.probe str_hash key e) :=
      fun e he1 he2 => hno e (by omega) (by omega)
    have hlt : t.probe str_hash key d ≠ t.size :=
      Nat.ne_of_lt (probe_lt str_hash t key d hpos)
    simp only [insertLoop]
    rw [if_neg hE, hd]
    by_cases hR : (t.node (t.probe str_hash key d)).status = Status.REMOVED
    · rw [if_pos hR, probe_succ]
      obtain ⟨t', ht', hpost⟩ := ih (d + 1)
        (if fr = t.size then t.probe str_hash key d else fr) f hno' (hd ▸ hstop) (by omega)
      refine ⟨t', ht', ?_⟩
      rcases hpost with ⟨hEn, s, hs, hfr1, hfr2⟩ | hupd
      · refine Or.inl ⟨hEn, s, hs, ?_, ?_⟩
        · intro h
          have := hfr1 (by rw [if_neg h]; exact h)
          rw [if_neg h] at this
          exact this
        · intro h
          have := hfr1 (by rw [if_pos h]; exact hlt)
          rw [if_pos h] at this
          exact ⟨d, Nat.le_refl d, by omega, this, fun m h1 h2 => by omega, fun _ => hR⟩
      · exact Or.inr hupd
    · rw [if_neg hR]
      have hF : (t.node (t.probe str_hash key d)).status = Status.FILLED := by
        cases hs : (t.node (t.probe str_hash key d)).status
        · exact absurd hs hE
        · rfl
        · exact absurd hs hR
      have hk : ¬ (t.node (t.probe str_hash key d)).key = key :=
        fun e => h0 (Or.inr ⟨hF, e⟩)
      rw [if_neg hk, probe_succ]
      obtain ⟨t', ht', hpost⟩ := ih (d + 1) fr f hno' (hd ▸ hstop) (by omega)
      refine ⟨t', ht', ?_⟩
      rcases hpost with ⟨hEn, s, hs, hfr1, hfr2⟩ | hupd
      · refine Or.inl ⟨hEn, s, hs, hfr1, ?_⟩
        intro h
        obtain ⟨e, he1, he2, hse, hnoR, hisR⟩ := hfr2 h
        refine ⟨e, by omega, by omega, hse, ?_, hisR⟩
        intro m hm1 hm2
        by_cases hmd : m = d
        · subst hmd; exact hR
        · exact hnoR m (by omega) hm2
      · exact Or.inr hupd

/-! ### What `insert` does, on any table with at least one slot -/

@[simp] theorem size_insertAt (t : HashTable) (s : Nat) (key : String) (value : Int) :
    (t.insertAt s key value).size = t.size := by
  rw [insertAt_eq]; simp

@[simp] theorem size_updateAt (t : HashTable) (i : Nat) (key : String) (value : Int) :
    (t.updateAt i key value).size = t.size := by
  rw [updateAt_eq]; simp

theorem payload_insertAt (t : HashTable) (s j : Nat) (key : String) (value : Int)
    (hs : s < t.size) :
    ((t.insertAt s key value).node j).status =
      (if j = s then Status.FILLED else (t.node j).status) ∧
    ((t.insertAt s key value).node j).key = (if j = s then key else (t.node j).key) ∧
    ((t.insertAt s key value).node j).value = (if j = s then value else (t.node j).value) := by
  rw [insertAt_eq]
  obtain ⟨h1, h2, h3⟩ := payload_linkFront
    (t.modify s (fun n => n.set_key_value key value)) s j
  rw [h1, h2, h3, node_modify]
  by_cases hjs : j = s
  · subst hjs; simp [hs, Node.set_key_value]
  · have : ¬ s = j := fun e => hjs e.symm
    simp [hjs, this]

theorem payload_updateAt (t : HashTable) (i j : Nat) (key : String) (value : Int)
    (hi : i < t.size) :
    ((t.updateAt i key value).node j).status =
      (if j = i then Status.FILLED else (t.node j).status) ∧
    ((t.updateAt i key value).node j).key = (if j = i then key else (t.node j).key) ∧
    ((t.updateAt i key value).node j).value = (if j = i then value else (t.node j).value) := by
  rw [updateAt_eq]
  obtain ⟨h1, h2, h3⟩ := payload_linkFront
    ((t.unlink i).modify i (fun n => n.set_key_value key value)) i j
  obtain ⟨u1, u2, u3⟩ := payload_unlink t i j
  rw [h1, h2, h3, node_modify]
  by_cases hji : j = i
  · subst hji; simp [hi, Node.set_key_value]
  · have : ¬ i = j := fun e => hji e.symm
    simp [hji, this, u1, u2, u3]

theorem insert_terminates (str_hash : String → Nat) (t : HashTable) (key : String)
    (value : Int) (fuel : Nat) (hpos : 0 < t.size)
    (h : ∃ x, x < t.size ∧ t.insertStop key x) (hfuel : t.size ≤ fuel) :
    ∃ t', t.insert str_hash fuel key value = some t' := by
  obtain ⟨x, hx, hstop⟩ := h
  obtain ⟨d, hd, hdx⟩ := probe_surj str_hash t key hx
  have hP : t.insertStop key (t.probe str_hash key d) := by rw [hdx]; exact hstop
  obtain ⟨n, hn, hsn, hmin⟩ :=
    exists_least (fun m => t.insertStop key (t.probe str_hash key m)) hP
  obtain ⟨t', ht', -⟩ := insertLoop_of_stop str_hash t key value hpos n 0 t.size fuel
    (fun e _ he => hmin e (by omega)) (by rw [Nat.zero_add]; exact hsn) (by omega)
  exact ⟨t', ht'⟩

theorem insert_cases (str_hash : String → Nat) (t t' : HashTable) (key : String)
    (value : Int) (fuel : Nat) (hpos : 0 < t.size)
    (h : t.insert str_hash fuel key value = some t') :
    ∃ n, n < fuel ∧ (∀ m, m < n → ¬ t.insertStop key (t.probe str_hash key m)) ∧
      (((t.node (t.probe str_hash key n)).status = Status.EMPTY ∧
          ∃ e, e ≤ n ∧ t' = t.insertAt (t.probe str_hash key e) key value ∧
            (∀ m, m < e → (t.node (t.probe str_hash key m)).status ≠ Status.REMOVED) ∧
            (e < n → (t.node (t.probe str_hash key e)).status = Status.REMOVED)) ∨
        ((t.node (t.probe str_hash key n)).status = Status.FILLED ∧
          (t.node (t.probe str_hash key n)).key = key ∧
          t' = t.updateAt (t.probe str_hash key n) key value)) := by
  have h0 : t.insertLoop key value fuel (t.probe str_hash key 0) t.size = some t' := h
  obtain ⟨n, hn, hno, hstop⟩ := insertLoop_some str_hash t key value fuel 0 t.size t' h0
  obtain ⟨t'', ht'', hpost⟩ := insertLoop_of_stop str_hash t key value hpos n 0 t.size fuel
    hno hstop hn
  have ht : t'' = t' := Option.some.inj (ht''.symm.trans h0)
  subst ht
  rw [Nat.zero_add] at hpost
  refine ⟨n, hn, fun m hm => hno m (Nat.zero_le m) (by omega), ?_⟩
  rcases hpost with ⟨hE, s, hs, -, hfr⟩ | ⟨⟨hF, hk⟩, hu⟩
  · obtain ⟨e, -, he, hse, hnoR, hisR⟩ := hfr rfl
    refine Or.inl ⟨hE, e, by omega, hse ▸ hs, fun m hm => hnoR m (Nat.zero_le m) hm, ?_⟩
    intro hen
    exact hisR (by omega)
  · exact Or.inr ⟨hF, hk, hu⟩

/-! ### The index invariant -/

theorem probe_congr (str_hash : String → Nat) {t t' : HashTable} (h : t'.size = t.size)
    (key : String) (d : Nat) : t'.probe str_hash key d = t.probe str_hash key d := by
  unfold probe; rw [h]

theorem IndexInv.index_new (str_hash : String → Nat) {C : Nat} (hC : 0 < C) :
    IndexInv str_hash C (HashTable.new C) where
  size_eq := size_new C
  pos := hC
  probe_ok := by intro i _ h; rw [node_new] at h; exact absurd h (by decide)
  uniq := by intro i j _ _ h; rw [node_new] at h; exact absurd h (by decide)
  blank := by intro i _; rw [node_new]

theorem IndexInv.status_of_key {str_hash : String → Nat} {C : Nat} {t : HashTable}
    (inv : IndexInv str_hash C t) {x : Nat} {key : String} (hk : key ≠ "")
    (h : (t.node x).key = key) : (t.node x).status = Status.FILLED := by
  by_contra hne
  exact hk (h ▸ inv.blank x hne)

theorem IndexInv.lt_of_filled {str_hash : String → Nat} {C : Nat} {t : HashTable}
    (inv : IndexInv str_hash C t) {x : Nat} (h : (t.node x).status = Status.FILLED) :
    x < C := by
  by_contra hx
  rw [node_of_size_le t x (by rw [inv.size_eq]; omega)] at h
  exact absurd h (by decide)

/-- Statuses and keys decide the index invariant. -/
theorem IndexInv.of_same {str_hash : String → Nat} {C : Nat} {t t' : HashTable}
    (inv : IndexInv str_hash C t) (hsize : t'.size = t.size)
    (hst : ∀ j, (t'.node j).status = (t.node j).status)
    (hkey : ∀ j, (t'.node j).key = (t.node j).key) : IndexInv str_hash C t' where
  size_eq := hsize.trans inv.size_eq
  pos := inv.pos
  probe_ok := by
    intro i hi hF
    rw [hst] at hF
    obtain ⟨d, hd, hp, hne⟩ := inv.probe_ok i hi hF
    refine ⟨d, hd, ?_, ?_⟩
    · rw [hkey, probe_congr str_hash hsize]; exact hp
    · intro e he
      rw [hkey, probe_congr str_hash hsize, hst]
      exact hne e he
  uniq := by
    intro i j hi hj hFi hFj hk
    rw [hst] at hFi hFj
    rw [hkey, hkey] at hk
    exact inv.uniq i j hi hj hFi hFj hk
  blank := by
    intro i hne
    rw [hst] at hne
    rw [hkey]
    exact inv.blank i hne

/-- Writing a key that is not live into its insertion point keeps the index
invariant. -/
theorem IndexInv.fill {str_hash : String → Nat} {C : Nat} {t t' : HashTable}
    (inv : IndexInv str_hash C t) (hsize : t'.size = t.size) {s d : Nat} {key : String}
    (hd : d < C) (hs : s = t.probe str_hash key d)
    (hpath : ∀ m, m < d → (t.node (t.probe str_hash key m)).status ≠ Status.EMPTY)
    (hsF : (t.node s).status ≠ Status.FILLED)
    (hno : ∀ i, ¬ t.holdsAt i key)
    (hst : ∀ j, (t'.node j).status = if j = s then Status.FILLED else (t.node j).status)
    (hkey : ∀ j, (t'.node j).key = if j = s then key else (t.node j).key) :
    IndexInv str_hash C t' where
  size_eq := hsize.trans inv.size_eq
  pos := inv.pos
  probe_ok := by
    intro i hi hF
    have hmono : ∀ x, (t.node x).status ≠ Status.EMPTY →
        (t'.node x).status ≠ Status.EMPTY := by
      intro x hx
      rw [hst]
      split
      · decide
      · exact hx
    by_cases his : i = s
    · subst his
      refine ⟨d, hd, ?_, ?_⟩
      · rw [hkey, if_pos rfl, probe_congr str_hash hsize]; exact hs.symm
      · intro e he
        rw [hkey, if_pos rfl, probe_congr str_hash hsize]
        exact hmono _ (hpath e he)
    · rw [hst, if_neg his] at hF
      obtain ⟨d', hd', hp, hne⟩ := inv.probe_ok i hi hF
      refine ⟨d', hd', ?_, ?_⟩
      · rw [hkey, if_neg his, probe_congr str_hash hsize]; exact hp
      · intro e he
        rw [hkey, if_neg his, probe_congr str_hash hsize]
        exact hmono _ (hne e he)
  uniq := by
    intro i j hi hj hFi hFj hk
    rw [hst] at hFi hFj
    rw [hkey, hkey] at hk
    have hsz : t.size = C := inv.size_eq
    by_cases his : i = s
    · by_cases hjs : j = s
      · rw [his, hjs]
      · rw [if_neg hjs] at hFj
        rw [if_pos his, if_neg hjs] at hk
        exact absurd ⟨by omega, hFj, hk.symm⟩ (hno j)
    · rw [if_neg his] at hFi
      by_cases hjs : j = s
      · rw [if_neg his, if_pos hjs] at hk
        exact absurd ⟨by omega, hFi, hk⟩ (hno i)
      · rw [if_neg hjs] at hFj
        rw [if_neg his, if_neg hjs] at hk
        exact inv.uniq i j hi hj hFi hFj hk
  blank := by
    intro i hne
    rw [hst] at hne
    by_cases his : i = s
    · rw [if_pos his] at hne; exact absurd rfl hne
    · rw [if_neg his] at hne
      rw [hkey, if_neg his]
      exact inv.blank i hne

/-- Turning a slot into a cleared REMOVED slot keeps the index invariant. -/
theorem IndexInv.clear {str_hash : String → Nat} {C : Nat} {t t' : HashTable}
    (inv : IndexInv str_hash C t) (hsize : t'.size = t.size) {x : Nat}
    (hst : ∀ j, (t'.node j).status = if j = x then Status.REMOVED else (t.node j).status)
    (hkey : ∀ j, (t'.node j).key = if j = x then "" else (t.node j).key) :
    IndexInv str_hash C t' where
  size_eq := hsize.trans inv.size_eq
  pos := inv.pos
  probe_ok := by
    intro i hi hF
    have hmono : ∀ y, (t.node y).status ≠ Status.EMPTY →
        (t'.node y).status ≠ Status.EMPTY := by
      intro y hy
      rw [hst]
      split
      · decide
      · exact hy
    have hix : i ≠ x := by
      intro e
      rw [hst, if_pos e] at hF
      exact absurd hF (by decide)
    rw [hst, if_neg hix] at hF
    obtain ⟨d', hd', hp, hne⟩ := inv.probe_ok i hi hF
    refine ⟨d', hd', ?_, ?_⟩
    · rw [hkey, if_neg hix, probe_congr str_hash hsize]; exact hp
    · intro e he
      rw [hkey, if_neg hix, probe_congr str_hash hsize]
      exact hmono _ (hne e he)
  uniq := by
    intro i j hi hj hFi hFj hk
    have hix : i ≠ x := by
      intro e
      rw [hst, if_pos e] at hFi
      exact absurd hFi (by decide)
    have hjx : j ≠ x := by
      intro e
      rw [hst, if_pos e] at hFj
      exact absurd hFj (by decide)
    rw [hst, if_neg hix] at hFi
    rw [hst, if_neg hjx] at hFj
    rw [hkey, hkey, if_neg hix, if_neg hjx] at hk
    exact inv.uniq i j hi hj hFi hFj hk
  blank := by
    intro i hne
    rw [hst] at hne
    rw [hkey]
    by_cases hix : i = x
    · rw [if_pos hix]
    · rw [if_neg hix] at hne ⊢
      exact inv.blank i hne

theorem InsertionPoint.facts {str_hash : String → Nat} {t : HashTable} {key : String}
    {s : Nat} (hpos : 0 < t.size) (h : t.InsertionPoint str_hash key s) :
    s < t.size ∧ (t.node s).status ≠ Status.FILLED ∧
      ∃ d, d < t.size ∧ s = t.probe str_hash key d ∧
        ∀ m, m < d → (t.node (t.probe str_hash key m)).status ≠ Status.EMPTY := by
  obtain ⟨n, e, hen, hs, hE, hnoE, -, hR⟩ := h
  have hn : n < t.size := by
    by_contra hge
    obtain ⟨d, hd, hdp⟩ := probe_surj str_hash t key (probe_lt str_hash t key n hpos)
    exact hnoE d (by omega) (hdp ▸ hE)
  refine ⟨hs ▸ probe_lt str_hash t key e hpos, ?_, e, by omega, hs, fun m hm => hnoE m (by omega)⟩
  rcases Nat.lt_or_ge e n with h1 | h1
  · rw [hs, hR h1]; decide
  · have : e = n := by omega
    rw [hs, this, hE]; decide

theorem insert_spec {str_hash : String → Nat} {C : Nat} {t t' : HashTable}
    (inv : IndexInv str_hash C t) {key : String} {value : Int} {fuel : Nat}
    (h : t.insert str_hash fuel key value = some t') :
    (∃ i, t.holdsAt i key ∧ t' = t.updateAt i key value) ∨
    ((∀ i, ¬ t.holdsAt i key) ∧
      ∃ s, t.InsertionPoint str_hash key s ∧ t' = t.insertAt s key value) := by
  have hpos : 0 < t.size := by rw [inv.size_eq]; exact inv.pos
  obtain ⟨n, -, hno, hcase⟩ := insert_cases str_hash t t' key value fuel hpos h
  rcases hcase with ⟨hE, e, hen, ht', hnoR, hisR⟩ | ⟨hF, hk, ht'⟩
  · right
    have hnoE : ∀ m, m < n → (t.node (t.probe str_hash key m)).status ≠ Status.EMPTY :=
      fun m hm hEm => hno m hm (Or.inl hEm)
    refine ⟨?_, _, ⟨n, e, hen, rfl, hE, hnoE, hnoR, hisR⟩, ht'⟩
    intro i ⟨hi, hFi, hki⟩
    obtain ⟨d, -, hdp, hdne⟩ := inv.probe_ok i (inv.size_eq ▸ hi) hFi
    rw [hki] at hdp hdne
    rcases Nat.lt_trichotomy d n with h1 | h1 | h1
    · exact hno d h1 (Or.inr ⟨by rw [hdp]; exact hFi, by rw [hdp]; exact hki⟩)
    · rw [← h1, hdp, hFi] at hE
      exact absurd hE (by decide)
    · exact hdne n h1 hE
  · left
    exact ⟨_, ⟨probe_lt str_hash t key n hpos, hF, hk⟩, ht'⟩

theorem IndexInv.insert {str_hash : String → Nat} {C : Nat} {t t' : HashTable}
    (inv : IndexInv str_hash C t) {key : String} {value : Int} {fuel : Nat}
    (h : t.insert str_hash fuel key value = some t') : IndexInv str_hash C t' := by
  have hpos : 0 < t.size := by rw [inv.size_eq]; exact inv.pos
  rcases insert_spec inv h with ⟨i, ⟨hi, hF, hk⟩, rfl⟩ | ⟨hno, s, hs, rfl⟩
  · refine inv.of_same (size_updateAt t i key value) ?_ ?_
    · intro j
      rw [(payload_updateAt t i j key value hi).1]
      split
      · next e => rw [e, hF]
      · rfl
    · intro j
      rw [(payload_updateAt t i j key value hi).2.1]
      split
      · next e => rw [e, hk]
      · rfl
  · obtain ⟨hlt, hsF, d, hd, hsd, hpath⟩ := hs.facts hpos
    exact inv.fill (size_insertAt t s key value) (inv.size_eq ▸ hd) hsd hpath hsF hno
      (fun j => (payload_insertAt t s j key value hlt).1)
      (fun j => (payload_insertAt t s j key value hlt).2.1)

theorem remove_some {str_hash : String → Nat} {t t' : HashTable} {key : String}
    {fuel : Nat} {b : Bool} (hpos : 0 < t.size)
    (h : t.remove str_hash fuel key = some (t', b)) :
    ∃ x, x < t.size ∧ t.searchStop key x ∧
      (∃ n, x = t.probe str_hash key n ∧
        ∀ m, m < n → ¬ t.searchStop key (t.probe str_hash key m)) ∧
      t.removeAt x = (t', b) := by
  unfold remove at h
  cases hs : t.searchLoop key fuel (str_hash key % t.size) with
  | none => rw [hs] at h; simp at h
  | some x =>
    rw [hs] at h
    have h' : t.removeAt x = (t', b) := by simpa using h
    obtain ⟨n, -, hno, hstop, hx⟩ := searchLoop_some str_hash t key fuel 0 x hs
    rw [Nat.zero_add] at hstop hx
    exact ⟨x, hx ▸ probe_lt str_hash t key n hpos, hx ▸ hstop,
      ⟨n, hx, fun m hm => hno m (Nat.zero_le m) (by omega)⟩, h'⟩

theorem status_key_removeAt (t : HashTable) (x j : Nat) (hx : x < t.size)
    (hne : (t.node x).status ≠ Status.EMPTY) :
    ((t.removeAt x).1.node j).status =
      (if j = x then Status.REMOVED else (t.node j).status) ∧
    ((t.removeAt x).1.node j).key = (if j = x then "" else (t.node j).key) ∧
    ((t.removeAt x).1.node j).value = (if j = x then 0 else (t.node j).value) := by
  by_cases hjx : j = x
  · subst hjx
    rw [node_removeAt_self t j hne hx]
    simp
  · obtain ⟨h1, h2, h3⟩ := payload_removeAt t x j hjx
    simp [hjx, h1, h2, h3]

theorem IndexInv.remove {str_hash : String → Nat} {C : Nat} {t t' : HashTable}
    (inv : IndexInv str_hash C t) {key : String} {fuel : Nat} {b : Bool}
    (h : t.remove str_hash fuel key = some (t', b)) : IndexInv str_hash C t' := by
  have hpos : 0 < t.size := by rw [inv.size_eq]; exact inv.pos
  obtain ⟨x, hx, -, -, hrem⟩ := remove_some hpos h
  by_cases hE : (t.node x).status = Status.EMPTY
  · rw [removeAt_of_empty t x hE] at hrem
    have : t = t' := congrArg Prod.fst hrem
    exact this ▸ inv
  · have ht' : t' = (t.removeAt x).1 := by rw [hrem]
    rw [ht']
    exact inv.clear (size_removeAt t x)
      (fun j => (status_key_removeAt t x j hx hE).1)
      (fun j => (status_key_removeAt t x j hx hE).2.1)

/-- Every reachable state satisfies the index invariant, whatever keys were
used. -/
theorem ReachableBy.indexInv {str_hash : String → Nat} {C : Nat} {pi pr : String → Prop}
    {t : HashTable} (h : ReachableBy str_hash C pi pr t) : IndexInv str_hash C t := by
  induction h with
  | fresh hC => exact IndexInv.index_new str_hash hC
  | insert fuel key value _ _ hins ih => exact ih.insert hins
  | remove fuel key _ _ hrem ih => exact ih.remove hrem

/-! ### The full invariant and the reference model -/

theorem RepInv.rep_new (str_hash : String → Nat) {C : Nat} (hC : 0 < C) :
    RepInv str_hash C (HashTable.new C) [] where
  index := IndexInv.index_new str_hash hC
  links := Links.links_new C
  covers := by
    intro i
    rw [node_new]
    simp

theorem pairs_congr {t t' : HashTable} {c : List Nat}
    (h : ∀ j, j ∈ c → (t'.node j).get_key_value = (t.node j).get_key_value) :
    t'.pairs c = t.pairs c :=
  List.map_congr_left h

theorem RepInv.pairs_erase {str_hash : String → Nat} {C : Nat} {t : HashTable}
    {c : List Nat} (r : RepInv str_hash C t c) {i : Nat} {key : String}
    (hi : t.holdsAt i key) : t.pairs (c.erase i) = Model.remove (t.pairs c) key := by
  unfold pairs Model.remove
  rw [List.Nodup.erase_eq_filter r.links.nodup, List.filter_map]
  congr 1
  apply List.filter_congr
  intro j hj
  obtain ⟨hjlt, hjF⟩ := (r.covers j).mp hj
  have hsz := r.index.size_eq
  by_cases hji : j = i
  · subst hji
    simp [Node.get_key_value, hi.2.2]
  · have hk : (t.node j).key ≠ key := by
      intro e
      exact hji (r.index.uniq j i (hsz ▸ hjlt) (hsz ▸ hi.1) hjF hi.2.1 (e.trans hi.2.2.symm))
    simp [Node.get_key_value, hji, hk]

theorem RepInv.pairs_absent {str_hash : String → Nat} {C : Nat} {t : HashTable}
    {c : List Nat} (r : RepInv str_hash C t c) {key : String}
    (hno : ∀ i, ¬ t.holdsAt i key) : Model.remove (t.pairs c) key = t.pairs c := by
  unfold pairs Model.remove
  rw [List.filter_eq_self]
  intro p hp
  obtain ⟨j, hj, rfl⟩ := List.mem_map.mp hp
  obtain ⟨hjlt, hjF⟩ := (r.covers j).mp hj
  have hk : (t.node j).key ≠ key := fun e => hno j ⟨hjlt, hjF, e⟩
  simp [Node.get_key_value, hk]

theorem RepInv.updateAt {str_hash : String → Nat} {C : Nat} {t : HashTable}
    {c : List Nat} (r : RepInv str_hash C t c) {i : Nat} {key : String} (value : Int)
    (hi : t.holdsAt i key) :
    RepInv str_hash C (t.updateAt i key value) (i :: c.erase i) ∧
      (t.updateAt i key value).pairs (i :: c.erase i) =
        Model.insert (t.pairs c) key value := by
  have hic : i ∈ c := (r.covers i).mpr ⟨hi.1, hi.2.1⟩
  have hnot : i ∉ c.erase i := fun h => ((List.Nodup.mem_erase_iff r.links.nodup).mp h).1 rfl
  have hpay := fun j => payload_updateAt t i j key value hi.1
  refine ⟨⟨?_, ?_, ?_⟩, ?_⟩
  · refine r.index.of_same (size_updateAt t i key value) ?_ ?_
    · intro j
      rw [(hpay j).1]
      split
      · next e => rw [e, hi.2.1]
      · rfl
    · intro j
      rw [(hpay j).2.1]
      split
      · next e => rw [e, hi.2.2]
      · rfl
  · rw [updateAt_eq]
    exact ((r.links.unlink hic).modify_of_not_mem hnot _).linkFront hnot (by simpa using hi.1)
  · intro j
    rw [size_updateAt, (hpay j).1, List.mem_cons, List.Nodup.mem_erase_iff r.links.nodup,
      r.covers j]
    by_cases hji : j = i
    · subst hji; simp [hi.1]
    · simp [hji]
  · have e1 : (t.updateAt i key value).pairs (i :: c.erase i) =
        (key, value) :: (t.updateAt i key value).pairs (c.erase i) := by
      simp [pairs, Node.get_key_value, (hpay i).2.1, (hpay i).2.2]
    have e2 : (t.updateAt i key value).pairs (c.erase i) = t.pairs (c.erase i) := by
      apply pairs_congr
      intro j hj
      have hji : j ≠ i := fun e => hnot (e ▸ hj)
      simp [Node.get_key_value, (hpay j).2.1, (hpay j).2.2, hji]
    rw [e1, e2, r.pairs_erase hi]
    rfl

theorem RepInv.insertAt {str_hash : String → Nat} {C : Nat} {t : HashTable}
    {c : List Nat} (r : RepInv str_hash C t c) {s : Nat} {key : String} (value : Int)
    (hno : ∀ i, ¬ t.holdsAt i key) (hs : t.InsertionPoint str_hash key s) :
    RepInv str_hash C (t.insertAt s key value) (s :: c) ∧
      (t.insertAt s key value).pairs (s :: c) = Model.insert (t.pairs c) key value := by
  have hpos : 0 < t.size := by rw [r.index.size_eq]; exact r.index.pos
  obtain ⟨hlt, hsF, d, hd, hsd, hpath⟩ := hs.facts hpos
  have hnot : s ∉ c := fun h => hsF ((r.covers s).mp h).2
  have hpay := fun j => payload_insertAt t s j key value hlt
  refine ⟨⟨?_, ?_, ?_⟩, ?_⟩
  · exact r.index.fill (size_insertAt t s key value) (r.index.size_eq ▸ hd) hsd hpath hsF hno
      (fun j => (hpay j).1) (fun j => (hpay j).2.1)
  · rw [insertAt_eq]
    exact (r.links.modify_of_not_mem hnot _).linkFront hnot (by simpa using hlt)
  · intro j
    rw [size_insertAt, (hpay j).1, List.mem_cons, r.covers j]
    by_cases hjs : j = s
    · subst hjs; simp [hlt]
    · simp [hjs]
  · have e1 : (t.insertAt s key value).pairs (s :: c) =
        (key, value) :: (t.insertAt s key value).pairs c := by
      simp [pairs, Node.get_key_value, (hpay s).2.1, (hpay s).2.2]
    have e2 : (t.insertAt s key value).pairs c = t.pairs c := by
      apply pairs_congr
      intro j hj
      have hjs : j ≠ s := fun e => hnot (e ▸ hj)
      simp [Node.get_key_value, (hpay j).2.1, (hpay j).2.2, hjs]
    rw [e1, e2]
    show _ = (key, value) :: Model.remove (t.pairs c) key
    rw [r.pairs_absent hno]

theorem RepInv.rep_removeAt {str_hash : String → Nat} {C : Nat} {t : HashTable}
    {c : List Nat} (r : RepInv str_hash C t c) {x : Nat} {key : String}
    (hx : t.holdsAt x key) :
    RepInv str_hash C (t.removeAt x).1 (c.erase x) ∧
      (t.removeAt x).1.pairs (c.erase x) = Model.remove (t.pairs c) key := by
  have hxc : x ∈ c := (r.covers x).mpr ⟨hx.1, hx.2.1⟩
  have hne : (t.node x).status ≠ Status.EMPTY := by rw [hx.2.1]; decide
  have hnot : x ∉ c.erase x := fun h => ((List.Nodup.mem_erase_iff r.links.nodup).mp h).1 rfl
  have hpay := fun j => status_key_removeAt t x j hx.1 hne
  refine ⟨⟨?_, ?_, ?_⟩, ?_⟩
  · exact r.index.clear (size_removeAt t x) (fun j => (hpay j).1) (fun j => (hpay j).2.1)
  · exact r.links.links_removeAt hxc hne
  · intro j
    rw [size_removeAt, (hpay j).1, List.Nodup.mem_erase_iff r.links.nodup, r.covers j]
    by_cases hjx : j = x
    · subst hjx; simp
    · simp [hjx]
  · have e2 : (t.removeAt x).1.pairs (c.erase x) = t.pairs (c.erase x) := by
      apply pairs_congr
      intro j hj
      have hjx : j ≠ x := fun e => hnot (e ▸ hj)
      simp [Node.get_key_value, (hpay j).2.1, (hpay j).2.2, hjx]
    rw [e2, r.pairs_erase hx]

/-! ### What `remove` and `get` do for a non-empty key -/

theorem search_found {str_hash : String → Nat} {C : Nat} {t : HashTable}
    (inv : IndexInv str_hash C t) {key : String} (hk : key ≠ "") {i : Nat}
    (hi : t.holdsAt i key) {fuel : Nat} (hfuel : C ≤ fuel) :
    t.searchLoop key fuel (str_hash key % t.size) = some i := by
  have hsz := inv.size_eq
  obtain ⟨d, hd, hdp, hdne⟩ := inv.probe_ok i (hsz ▸ hi.1) hi.2.1
  rw [hi.2.2] at hdp hdne
  have hP : t.searchStop key (t.probe str_hash key d) := Or.inl (by rw [hdp]; exact hi.2.2)
  obtain ⟨n, hn, hsn, hmin⟩ :=
    exists_least (fun m => t.searchStop key (t.probe str_hash key m)) hP
  have hrun := searchLoop_of_stop str_hash t key n 0 fuel
    (fun e _ he => hmin e (by omega)) (by rw [Nat.zero_add]; exact hsn) (by omega)
  rw [Nat.zero_add] at hrun
  rw [← probe_zero, hrun]
  congr 1
  rcases hsn with hkey | hE
  · have hF := inv.status_of_key hk hkey
    exact inv.uniq _ i (inv.lt_of_filled hF) (hsz ▸ hi.1) hF hi.2.1 (hkey.trans hi.2.2.symm)
  · rcases Nat.lt_or_ge n d with h1 | h1
    · exact absurd hE (hdne n h1)
    · have : n = d := by omega
      rw [this, hdp, hi.2.1] at hE
      exact absurd hE (by decide)

theorem search_absent {str_hash : String → Nat} {C : Nat} {t : HashTable}
    (inv : IndexInv str_hash C t) {key : String} (hk : key ≠ "")
    (hno : ∀ i, ¬ t.holdsAt i key) (he : t.hasEmpty) {fuel : Nat} (hfuel : C ≤ fuel) :
    ∃ x, t.searchLoop key fuel (str_hash key % t.size) = some x ∧ x < t.size ∧
      (t.node x).status = Status.EMPTY := by
  have hsz := inv.size_eq
  have hpos : 0 < t.size := by rw [hsz]; exact inv.pos
  obtain ⟨y, hy, hyE⟩ := he
  obtain ⟨d, hd, hdp⟩ := probe_surj str_hash t key hy
  have hP : t.searchStop key (t.probe str_hash key d) := Or.inr (by rw [hdp]; exact hyE)
  obtain ⟨n, hn, hsn, hmin⟩ :=
    exists_least (fun m => t.searchStop key (t.probe str_hash key m)) hP
  have hrun := searchLoop_of_stop str_hash t key n 0 fuel
    (fun e _ he => hmin e (by omega)) (by rw [Nat.zero_add]; exact hsn) (by omega)
  rw [Nat.zero_add] at hrun
  refine ⟨_, by rw [← probe_zero]; exact hrun, probe_lt str_hash t key n hpos, ?_⟩
  rcases hsn with hkey | hE
  · have hF := inv.status_of_key hk hkey
    exact absurd ⟨probe_lt str_hash t key n hpos, hF, hkey⟩ (hno _)
  · exact hE

theorem remove_found {str_hash : String → Nat} {C : Nat} {t : HashTable}
    (inv : IndexInv str_hash C t) {key : String} (hk : key ≠ "") {x : Nat}
    (hx : t.holdsAt x key) {fuel : Nat} (hfuel : C ≤ fuel) :
    t.remove str_hash fuel key = some ((t.removeAt x).1, false) := by
  unfold remove
  rw [search_found inv hk hx hfuel]
  have hne : (t.node x).status ≠ Status.EMPTY := by rw [hx.2.1]; decide
  simp [← removeAt_snd t x hne]

theorem remove_absent {str_hash : String → Nat} {C : Nat} {t : HashTable}
    (inv : IndexInv str_hash C t) {key : String} (hk : key ≠ "")
    (hno : ∀ i, ¬ t.holdsAt i key) (he : t.hasEmpty) {fuel : Nat} (hfuel : C ≤ fuel) :
    t.remove str_hash fuel key = some (t, true) := by
  obtain ⟨x, hrun, -, hE⟩ := search_absent inv hk hno he hfuel
  unfold remove
  rw [hrun]
  simp [removeAt_of_empty t x hE]

theorem remove_spec {str_hash : String → Nat} {C : Nat} {t t' : HashTable}
    (inv : IndexInv str_hash C t) {key : String} (hk : key ≠ "") {fuel : Nat} {b : Bool}
    (h : t.remove str_hash fuel key = some (t', b)) :
    (∃ x, t.holdsAt x key ∧ t' = (t.removeAt x).1 ∧ b = false) ∨
    ((∀ i, ¬ t.holdsAt i key) ∧ t' = t ∧ b = true) := by
  have hsz := inv.size_eq
  have hpos : 0 < t.size := by rw [hsz]; exact inv.pos
  obtain ⟨x, hx, hstop, ⟨n, hxn, hno⟩, hrem⟩ := remove_some hpos h
  rcases hstop with hkey | hE
  · left
    have hF := inv.status_of_key hk hkey
    have hne : (t.node x).status ≠ Status.EMPTY := by rw [hF]; decide
    refine ⟨x, ⟨hx, hF, hkey⟩, by rw [hrem], ?_⟩
    rw [← removeAt_snd t x hne, hrem]
  · right
    rw [removeAt_of_empty t x hE] at hrem
    refine ⟨?_, (congrArg Prod.fst hrem).symm, (congrArg Prod.snd hrem).symm⟩
    intro i ⟨hi, hFi, hki⟩
    obtain ⟨d, -, hdp, hdne⟩ := inv.probe_ok i (hsz ▸ hi) hFi
    rw [hki] at hdp hdne
    rcases Nat.lt_trichotomy d n with h1 | h1 | h1
    · exact hno d h1 (Or.inl (by rw [hdp]; exact hki))
    · rw [hxn, ← h1, hdp, hFi] at hE
      exact absurd hE (by decide)
    · exact hdne n h1 (hxn ▸ hE)

theorem get_found {str_hash : String → Nat} {C : Nat} {t : HashTable}
    (inv : IndexInv str_hash C t) {key : String} (hk : key ≠ "") {x : Nat}
    (hx : t.holdsAt x key) {fuel : Nat} (hfuel : C ≤ fuel) :
    t.get str_hash fuel key = some ((t.node x).value, false) := by
  unfold get
  rw [search_found inv hk hx hfuel]
  have hne : ¬ (t.node x).status = Status.EMPTY := by rw [hx.2.1]; decide
  simp [getAt, hne]

theorem get_absent {str_hash : String → Nat} {C : Nat} {t : HashTable}
    (inv : IndexInv str_hash C t) {key : String} (hk : key ≠ "")
    (hno : ∀ i, ¬ t.holdsAt i key) (he : t.hasEmpty) {fuel : Nat} (hfuel : C ≤ fuel) :
    t.get str_hash fuel key = some (-1, true) := by
  obtain ⟨x, hrun, -, hE⟩ := search_absent inv hk hno he hfuel
  unfold get
  rw [hrun]
  simp [getAt, hE]

/-! ### Counting the slots in use -/

theorem countP_le_succ (l : List Nat) (hl : l.Nodup) (p q : Nat → Bool) (s : Nat)
    (h : ∀ j, j ∈ l → j ≠ s → q j = true → p j = true) :
    l.countP q ≤ l.countP p + 1 := by
  induction l with
  | nil => simp
  | cons a l ih =>
    have ha : a ∉ l := (List.nodup_cons.mp hl).1
    have hl' : l.Nodup := (List.nodup_cons.mp hl).2
    rw [List.countP_cons, List.countP_cons]
    by_cases has : a = s
    · have hmono : l.countP q ≤ l.countP p :=
        List.countP_mono_left (fun j hj hq =>
          h j (List.mem_cons_of_mem _ hj) (fun e => ha (e.trans has.symm ▸ hj)) hq)
      split <;> split <;> omega
    · have ih' := ih hl' (fun j hj => h j (List.mem_cons_of_mem _ hj))
      have hqa : q a = true → p a = true := h a (List.mem_cons_self _ _) has
      by_cases hq : q a = true
      · rw [if_pos hq, if_pos (hqa hq)]; omega
      · rw [if_neg hq]; split <;> omega

theorem used_new (C : Nat) : (HashTable.new C).used = 0 := by
  unfold used
  rw [List.length_eq_zero, List.filter_eq_nil_iff]
  intro i _
  rw [node_new]
  simp

theorem used_le_succ {t t' : HashTable} (hsize : t'.size = t.size) (s : Nat)
    (h : ∀ j, j ≠ s → (t'.node j).status = (t.node j).status) : t'.used ≤ t.used + 1 := by
  unfold used
  rw [hsize, ← List.countP_eq_length_filter, ← List.countP_eq_length_filter]
  apply countP_le_succ _ (List.nodup_range _) _ _ s
  intro j _ hjs hq
  rw [h j hjs] at hq
  exact hq

theorem used_eq {t t' : HashTable} (hsize : t'.size = t.size)
    (h : ∀ j, (t'.node j).status = Status.EMPTY ↔ (t.node j).status = Status.EMPTY) :
    t'.used = t.used := by
  unfold used
  rw [hsize]
  congr 1
  apply List.filter_congr
  intro j _
  simp [h j]

theorem hasEmpty_of_used_lt {t : HashTable} (h : t.used < t.size) : t.hasEmpty := by
  by_contra hne
  have hall : ∀ i, i ∈ List.range t.size →
      decide ((t.node i).status ≠ Status.EMPTY) = true := by
    intro i hi
    have hi' := List.mem_range.mp hi
    simp only [decide_eq_true_eq]
    exact fun e => hne ⟨i, hi', e⟩
  unfold used at h
  rw [List.filter_eq_self.mpr hall, List.length_range] at h
  exact Nat.lt_irrefl _ h

theorem used_insert {str_hash : String → Nat} {C : Nat} {t t' : HashTable}
    (inv : IndexInv str_hash C t) {key : String} {value : Int} {fuel : Nat}
    (h : t.insert str_hash fuel key value = some t') : t'.used ≤ t.used + 1 := by
  have hpos : 0 < t.size := by rw [inv.size_eq]; exact inv.pos
  rcases insert_spec inv h with ⟨i, ⟨hi, hF, hk⟩, rfl⟩ | ⟨hno, s, hs, rfl⟩
  · apply used_le_succ (size_updateAt t i key value) i
    intro j hji
    rw [(payload_updateAt t i j key value hi).1, if_neg hji]
  · apply used_le_succ (size_insertAt t s key value) s
    intro j hjs
    rw [(payload_insertAt t s j key value (hs.facts hpos).1).1, if_neg hjs]

theorem used_remove {str_hash : String → Nat} {t t' : HashTable} {key : String}
    {fuel : Nat} {b : Bool} (hpos : 0 < t.size)
    (h : t.remove str_hash fuel key = some (t', b)) : t'.used = t.used := by
  obtain ⟨x, hx, -, -, hrem⟩ := remove_some hpos h
  by_cases hE : (t.node x).status = Status.EMPTY
  · rw [removeAt_of_empty t x hE] at hrem
    have e : t = t' := congrArg Prod.fst hrem
    rw [e]
  · have ht' : t' = (t.removeAt x).1 := by rw [hrem]
    rw [ht']
    apply used_eq (size_removeAt t x)
    intro j
    rw [(status_key_removeAt t x j hx hE).1]
    by_cases hjx : j = x
    · subst hjx; simp [hE]
    · simp [hjx]

/-! ### Refinement of the reference model -/

theorem get_last_eq {t : HashTable} {c : List Nat} (l : Links t c) :
    t.get_last = Model.get_last (t.pairs c) := by
  unfold get_last Model.get_last pairs
  rw [l.head_eq, List.head?_map]
  cases c.head? <;> rfl

theorem get_first_eq {t : HashTable} {c : List Nat} (l : Links t c) :
    t.get_first = Model.get_first (t.pairs c) := by
  unfold get_first Model.get_first pairs
  rw [l.tail_eq, List.getLast?_map]
  cases c.getLast? <;> rfl

theorem RepInv.mem_pairs {str_hash : String → Nat} {C : Nat} {t : HashTable}
    {c : List Nat} (r : RepInv str_hash C t c) {key : String} {value : Int} :
    (key, value) ∈ t.pairs c ↔ ∃ x, t.holdsAt x key ∧ (t.node x).value = value := by
  unfold pairs
  rw [List.mem_map]
  constructor
  · rintro ⟨x, hx, hkv⟩
    obtain ⟨hlt, hF⟩ := (r.covers x).mp hx
    simp only [Node.get_key_value, Prod.mk.injEq] at hkv
    exact ⟨x, ⟨hlt, hF, hkv.1⟩, hkv.2⟩
  · rintro ⟨x, ⟨hlt, hF, hk⟩, hv⟩
    exact ⟨x, (r.covers x).mpr ⟨hlt, hF⟩, by simp [Node.get_key_value, hk, hv]⟩

theorem RepInv.liveCount_eq {str_hash : String → Nat} {C : Nat} {t : HashTable}
    {c : List Nat} (r : RepInv str_hash C t c) : t.liveCount = c.length := by
  unfold liveCount
  apply List.Perm.length_eq
  rw [List.perm_ext_iff_of_nodup ((List.nodup_range _).filter _) r.links.nodup]
  intro a
  rw [r.covers a]
  simp

theorem insert_refines {str_hash : String → Nat} {C : Nat} {t t' : HashTable}
    {c : List Nat} (r : RepInv str_hash C t c) {key : String} {value : Int} {fuel : Nat}
    (h : t.insert str_hash fuel key value = some t') :
    ∃ c', RepInv str_hash C t' c' ∧ t'.pairs c' = Model.insert (t.pairs c) key value := by
  rcases insert_spec r.index h with ⟨i, hi, rfl⟩ | ⟨hno, s, hs, rfl⟩
  · exact ⟨_, r.updateAt value hi⟩
  · exact ⟨_, r.insertAt value hno hs⟩

theorem remove_refines {str_hash : String → Nat} {C : Nat} {t t' : HashTable}
    {c : List Nat} (r : RepInv str_hash C t c) {key : String} (hk : key ≠ "")
    {fuel : Nat} {b : Bool} (h : t.remove str_hash fuel key = some (t', b)) :
    ∃ c', RepInv str_hash C t' c' ∧ t'.pairs c' = Model.remove (t.pairs c) key := by
  rcases remove_spec r.index hk h with ⟨x, hx, rfl, -⟩ | ⟨hno, rfl, -⟩
  · exact ⟨_, r.rep_removeAt hx⟩
  · exact ⟨c, r, (r.pairs_absent hno).symm⟩

theorem insert_returns {str_hash : String → Nat} {C : Nat} {t : HashTable}
    (inv : IndexInv str_hash C t) (key : String) (value : Int) {fuel : Nat}
    (he : t.hasEmpty) (hfuel : C ≤ fuel) :
    ∃ t', t.insert str_hash fuel key value = some t' := by
  have hpos : 0 < t.size := by rw [inv.size_eq]; exact inv.pos
  obtain ⟨x, hx, hE⟩ := he
  exact insert_terminates str_hash t key value fuel hpos ⟨x, hx, Or.inl hE⟩
    (by rw [inv.size_eq]; exact hfuel)

theorem remove_returns {str_hash : String → Nat} {C : Nat} {t : HashTable}
    (inv : IndexInv str_hash C t) {key : String} (hk : key ≠ "") {fuel : Nat}
    (he : t.hasEmpty) (hfuel : C ≤ fuel) :
    ∃ t' b, t.remove str_hash fuel key = some (t', b) := by
  by_cases hx : ∃ x, t.holdsAt x key
  · obtain ⟨x, hx⟩ := hx
    exact ⟨_, _, remove_found inv hk hx hfuel⟩
  · exact ⟨_, _, remove_absent inv hk (fun i hi => hx ⟨i, hi⟩) he hfuel⟩

theorem get_of_mem {str_hash : String → Nat} {C : Nat} {t : HashTable} {c : List Nat}
    (r : RepInv str_hash C t c) {key : String} (hk : key ≠ "") {value : Int}
    (hm : (key, value) ∈ t.pairs c) {fuel : Nat} (hfuel : C ≤ fuel) :
    t.get str_hash fuel key = some (value, false) := by
  obtain ⟨x, hx, hv⟩ := r.mem_pairs.mp hm
  rw [get_found r.index hk hx hfuel, hv]

theorem get_of_not_mem {str_hash : String → Nat} {C : Nat} {t : HashTable} {c : List Nat}
    (r : RepInv str_hash C t c) {key : String} (hk : key ≠ "")
    (hm : ∀ p, p ∈ t.pairs c → p.1 ≠ key) (he : t.hasEmpty) {fuel : Nat} (hfuel : C ≤ fuel) :
    t.get str_hash fuel key = some (-1, true) := by
  apply get_absent r.index hk _ he hfuel
  intro i hi
  exact hm _ (r.mem_pairs.mpr ⟨i, hi, rfl⟩) rfl

/-! ### Reachable states -/

theorem ReachableBy.mono {str_hash : String → Nat} {C : Nat} {pi pr pi' pr' : String → Prop}
    (hi : ∀ k, pi k → pi' k) (hr : ∀ k, pr k → pr' k) {t : HashTable}
    (h : ReachableBy str_hash C pi pr t) : ReachableBy str_hash C pi' pr' t := by
  induction h with
  | fresh hC => exact ReachableBy.fresh hC
  | insert fuel key value hk _ hins ih => exact ReachableBy.insert fuel key value (hi _ hk) ih hins
  | remove fuel key hk _ hrem ih => exact ReachableBy.remove fuel key (hr _ hk) ih hrem

/-- As long as `remove` is never called with the empty key, every reachable
state satisfies the full invariant. -/
theorem ReachableBy.repInv {str_hash : String → Nat} {C : Nat} {pi pr : String → Prop}
    (hpr : ∀ k, pr k → k ≠ "") {t : HashTable} (h : ReachableBy str_hash C pi pr t) :
    ∃ c, RepInv str_hash C t c := by
  induction h with
  | fresh hC => exact ⟨[], RepInv.rep_new str_hash hC⟩
  | insert fuel key value _ _ hins ih =>
    obtain ⟨c, r⟩ := ih
    obtain ⟨c', r', -⟩ := insert_refines r hins
    exact ⟨c', r'⟩
  | remove fuel key hk _ hrem ih =>
    obtain ⟨c, r⟩ := ih
    obtain ⟨c', r', -⟩ := remove_refines r (hpr _ hk) hrem
    exact ⟨c', r'⟩

/-- When `insert` is never called with the empty key, no FILLED slot holds
the empty key. -/
theorem ReachableBy.key_ne {str_hash : String → Nat} {C : Nat} {pi pr : String → Prop}
    (hpi : ∀ k, pi k → k ≠ "") {t : HashTable} (h : ReachableBy str_hash C pi pr t) :
    ∀ i, (t.node i).status = Status.FILLED → (t.node i).key ≠ "" := by
  induction h with
  | fresh hC => intro i hF; rw [node_new] at hF; exact absurd hF (by decide)
  | @insert t t' fuel key value hk hreach hins ih =>
    have inv := hreach.indexInv
    have hpos : 0 < t.size := by rw [inv.size_eq]; exact inv.pos
    intro j hF
    rcases insert_spec inv hins with ⟨i, hi, rfl⟩ | ⟨hno, s, hs, rfl⟩
    · rw [(payload_updateAt t i j key value hi.1).2.1]
      rw [(payload_updateAt t i j key value hi.1).1] at hF
      split
      · exact hpi _ hk
      · next hji => rw [if_neg hji] at hF; exact ih j hF
    · rw [(payload_insertAt t s j key value (hs.facts hpos).1).2.1]
      rw [(payload_insertAt t s j key value (hs.facts hpos).1).1] at hF
      split
      · exact hpi _ hk
      · next hjs => rw [if_neg hjs] at hF; exact ih j hF
  | @remove t t' b fuel key hk hreach hrem ih =>
    have inv := hreach.indexInv
    have hpos : 0 < t.size := by rw [inv.size_eq]; exact inv.pos
    intro j hF
    obtain ⟨x, hx, -, -, hr⟩ := remove_some hpos hrem
    by_cases hE : (t.node x).status = Status.EMPTY
    · rw [removeAt_of_empty t x hE] at hr
      have e : t = t' := congrArg Prod.fst hr
      rw [← e] at hF ⊢
      exact ih j hF
    · have ht' : t' = (t.removeAt x).1 := by rw [hr]
      rw [ht'] at hF ⊢
      rw [(status_key_removeAt t x j hx hE).1] at hF
      rw [(status_key_removeAt t x j hx hE).2.1]
      by_cases hjx : j = x
      · rw [if_pos hjx] at hF; exact absurd hF (by decide)
      · rw [if_neg hjx] at hF ⊢; exact ih j hF

/-! ### Frame properties used by the claims -/

theorem insert_holds {str_hash : String → Nat} {t t' : HashTable} {key : String}
    {value : Int} {fuel : Nat} (hpos : 0 < t.size)
    (h : t.insert str_hash fuel key value = some t') :
    ∃ i, t'.holdsAt i key ∧ (t'.node i).value = value := by
  obtain ⟨n, -, -, hcase⟩ := insert_cases str_hash t t' key value fuel hpos h
  rcases hcase with ⟨-, e, -, rfl, -, -⟩ | ⟨-, -, rfl⟩
  · have hlt := probe_lt str_hash t key e hpos
    have hp := payload_insertAt t (t.probe str_hash key e) (t.probe str_hash key e) key
      value hlt
    simp only [if_true] at hp
    exact ⟨_, ⟨by simpa using hlt, hp.1, hp.2.1⟩, hp.2.2⟩
  · have hlt := probe_lt str_hash t key n hpos
    have hp := payload_updateAt t (t.probe str_hash key n) (t.probe str_hash key n) key
      value hlt
    simp only [if_true] at hp
    exact ⟨_, ⟨by simpa using hlt, hp.1, hp.2.1⟩, hp.2.2⟩

theorem insert_step {str_hash : String → Nat} {C : Nat} {t : HashTable} {c : List Nat}
    (r : RepInv str_hash C t c) (key : String) (value : Int) {fuel : Nat}
    (hu : t.used < C) (hfuel : C ≤ fuel) :
    ∃ t' c', t.insert str_hash fuel key value = some t' ∧ RepInv str_hash C t' c' ∧
      t'.pairs c' = Model.insert (t.pairs c) key value ∧ t'.used ≤ t.used + 1 := by
  have he : t.hasEmpty := hasEmpty_of_used_lt (by rw [r.index.size_eq]; exact hu)
  obtain ⟨t', h⟩ := insert_returns r.index key value he hfuel
  obtain ⟨c', r', hp⟩ := insert_refines r h
  exact ⟨t', c', h, r', hp, used_insert r.index h⟩

theorem remove_step {str_hash : String → Nat} {C : Nat} {t : HashTable} {c : List Nat}
    (r : RepInv str_hash C t c) (key : String) (value : Int) (hk : key ≠ "")
    (hm : (key, value) ∈ t.pairs c) {fuel : Nat} (hfuel : C ≤ fuel) :
    ∃ t' c', t.remove str_hash fuel key = some (t', false) ∧ RepInv str_hash C t' c' ∧
      t'.pairs c' = Model.remove (t.pairs c) key ∧ t'.used = t.used := by
  have hpos : 0 < t.size := by rw [r.index.size_eq]; exact r.index.pos
  obtain ⟨x, hx, -⟩ := r.mem_pairs.mp hm
  have h := remove_found r.index hk hx hfuel
  obtain ⟨r', hp⟩ := r.rep_removeAt hx
  exact ⟨_, _, h, r', hp, used_remove hpos h⟩

/-- Without an EMPTY slot and without a FILLED slot holding the key, the loop
of `insert` never ends, whatever the fuel. -/
theorem insert_diverges (str_hash : String → Nat) (t : HashTable) (key : String)
    (value : Int) (hpos : 0 < t.size) (hno : ∀ x, x < t.size → ¬ t.insertStop key x) :
    ∀ fuel, t.insert str_hash fuel key value = none := by
  intro fuel
  cases h : t.insert str_hash fuel key value with
  | none => rfl
  | some t' =>
    obtain ⟨n, -, -, hcase⟩ := insert_cases str_hash t t' key value fuel hpos h
    have hlt := probe_lt str_hash t key n hpos
    rcases hcase with ⟨hE, -⟩ | ⟨hF, hk, -⟩
    · exact absurd (Or.inl hE) (hno _ hlt)
    · exact absurd (Or.inr ⟨hF, hk⟩) (hno _ hlt)

/-- Round-trip for a non-empty key, in any reachable state with an EMPTY
slot: `insert(k, v)` returns and `get(k)` then returns `v` as found. -/
theorem insert_get_of_ne {str_hash : String → Nat} {C : Nat} {pi pr : String → Prop}
    {t : HashTable} (hreach : ReachableBy str_hash C pi pr t) (he : t.hasEmpty)
    {key : String} (hk : key ≠ "") (value : Int) {fuel : Nat} (hfuel : C ≤ fuel) :
    ∃ t', t.insert str_hash fuel key value = some t' ∧
      t'.get str_hash fuel key = some (value, false) := by
  have inv := hreach.indexInv
  have hpos : 0 < t.size := by rw [inv.size_eq]; exact inv.pos
  obtain ⟨t', h⟩ := insert_returns inv key value he hfuel
  obtain ⟨i, hi, hv⟩ := insert_holds hpos h
  exact ⟨t', h, by rw [get_found (inv.insert h) hk hi hfuel, hv]⟩

/-- As long as `remove` is never called with the empty key, `get_last` and
`get_first` return the empty result or a live pair. -/
theorem accessors_live {str_hash : String → Nat} {C : Nat} {pi pr : String → Prop}
    (hpr : ∀ k, pr k → k ≠ "") {t : HashTable} (hreach : ReachableBy str_hash C pi pr t) :
    (t.get_last = ("", -1) ∨ t.live t.get_last.1 t.get_last.2) ∧
    (t.get_first = ("", -1) ∨ t.live t.get_first.1 t.get_first.2) := by
  obtain ⟨c, r⟩ := hreach.repInv hpr
  constructor
  · unfold get_last
    rw [r.links.head_eq]
    cases hc : c.head? with
    | none => exact Or.inl rfl
    | some i =>
      obtain ⟨hlt, hF⟩ := (r.covers i).mp (List.mem_of_mem_head? hc)
      exact Or.inr ⟨i, ⟨hlt, hF, rfl⟩, rfl⟩
  · unfold get_first
    rw [r.links.tail_eq]
    cases hc : c.getLast? with
    | none => exact Or.inl rfl
    | some i =>
      obtain ⟨hlt, hF⟩ := (r.covers i).mp (List.mem_of_getLast?_eq_some hc)
      exact Or.inr ⟨i, ⟨hlt, hF, rfl⟩, rfl⟩

/-! ### Status transitions, on any table -/

theorem status_insertAt_any (t : HashTable) (s j : Nat) (key : String) (value : Int) :
    ((t.insertAt s key value).node j).status =
      if s = j ∧ j < t.size then Status.FILLED else (t.node j).status := by
  rw [insertAt_eq, (payload_linkFront _ s j).1, node_modify]
  split <;> rfl

theorem status_updateAt_any (t : HashTable) (i j : Nat) (key : String) (value : Int) :
    ((t.updateAt i key value).node j).status =
      if i = j ∧ j < t.size then Status.FILLED else (t.node j).status := by
  rw [updateAt_eq, (payload_linkFront _ i j).1, node_modify, size_unlink]
  split
  · rfl
  · exact (payload_unlink t i j).1

theorem insertLoop_status (t : HashTable) (key : String) (value : Int) :
    ∀ (fuel idx fr : Nat) (t' : HashTable),
      (fr ≠ t.size → (t.node fr).status = Status.REMOVED) →
      t.insertLoop key value fuel idx fr = some t' →
      t'.size = t.size ∧
      ∀ j, (t'.node j).status = (t.node j).status ∨
        ((t.node j).status = Status.EMPTY ∧ (t'.node j).status = Status.FILLED) ∨
        ((t.node j).status = Status.REMOVED ∧ (t'.node j).status = Status.FILLED) := by
  intro fuel
  induction fuel with
  | zero => intro idx fr t' _ h; simp [insertLoop] at h
  | succ f ih =>
    intro idx fr t' hfr h
    simp only [insertLoop] at h
    by_cases hE : (t.node idx).status = Status.EMPTY
    · rw [if_pos hE] at h
      have ht' := (Option.some.inj h).symm
      subst ht'
      refine ⟨size_insertAt _ _ _ _, ?_⟩
      intro j
      rw [status_insertAt_any]
      by_cases hfs : fr ≠ t.size
      · rw [if_pos hfs]
        by_cases hj : fr = j ∧ j < t.size
        · rw [if_pos hj]
          exact Or.inr (Or.inr ⟨hj.1 ▸ hfr hfs, rfl⟩)
        · rw [if_neg hj]; exact Or.inl rfl
      · rw [if_neg hfs]
        by_cases hj : idx = j ∧ j < t.size
        · rw [if_pos hj]
          exact Or.inr (Or.inl ⟨hj.1 ▸ hE, rfl⟩)
        · rw [if_neg hj]; exact Or.inl rfl
    · rw [if_neg hE] at h
      by_cases hR : (t.node idx).status = Status.REMOVED
      · rw [if_pos hR] at h
        refine ih _ _ t' ?_ h
        intro hne
        by_cases hfs : fr = t.size
        · rw [if_pos hfs]; exact hR
        · rw [if_neg hfs] at hne ⊢; exact hfr hfs
      · rw [if_neg hR] at h
        by_cases hk : (t.node idx).key = key
        · rw [if_pos hk] at h
          have ht' := (Option.some.inj h).symm
          subst ht'
          refine ⟨size_updateAt _ _ _ _, ?_⟩
          intro j
          rw [status_updateAt_any]
          by_cases hj : idx = j ∧ j < t.size
          · rw [if_pos hj]
            left
            rw [← hj.1]
            cases hs : (t.node idx).status
            · exact absurd hs hE
            · rfl
            · exact absurd hs hR
          · rw [if_neg hj]; exact Or.inl rfl
        · rw [if_neg hk] at h
          exact ih _ _ t' hfr h

theorem remove_status {str_hash : String → Nat} {t t' : HashTable} {key : String}
    {fuel : Nat} {b : Bool} (h : t.remove str_hash fuel key = some (t', b)) :
    t'.size = t.size ∧
    ∀ j, (t'.node j).status = (t.node j).status ∨
      ((t.node j).status = Status.FILLED ∧ (t'.node j).status = Status.REMOVED) := by
  unfold remove at h
  cases hs : t.searchLoop key fuel (str_hash key % t.size) with
  | none => rw [hs] at h; simp at h
  | some x =>
    rw [hs] at h
    have h' : t.removeAt x = (t', b) := by simpa using h
    have ht' : t' = (t.removeAt x).1 := by rw [h']
    subst ht'
    refine ⟨size_removeAt t x, ?_⟩
    intro j
    by_cases hE : (t.node x).status = Status.EMPTY
    · rw [removeAt_of_empty t x hE]; exact Or.inl rfl
    · by_cases hjx : j = x
      · subst hjx
        by_cases hlt : j < t.size
        · rw [node_removeAt_self t j hE hlt]
          cases hst : (t.node j).status
          · exact absurd hst hE
          · exact Or.inr ⟨rfl, rfl⟩
          · exact Or.inl rfl
        · rw [node_of_size_le t j (by omega)] at hE
          exact absurd rfl hE
      · exact Or.inl (payload_removeAt t x j hjx).1

/-! ### Lookup in a table without REMOVED slots -/

theorem nextOf_append {pre s : List Nat} {a : Nat} (h : (pre ++ a :: s).Nodup) :
    nextOf (pre ++ a :: s) a = s.head? := by
  induction pre with
  | nil => exact nextOf_cons_self a s
  | cons b pre ih =>
    have hb : b ∉ pre ++ a :: s := (List.nodup_cons.mp h).1
    have hab : a ≠ b := by
      intro e
      exact hb (by rw [e]; simp)
    rw [List.cons_append, nextOf_cons_of_ne _ hab]
    exact ih (List.nodup_cons.mp h).2

theorem walk_none (t : HashTable) (fuel : Nat) : t.walk fuel none = [] := by
  cases fuel <;> rfl

theorem Links.walk_suffix {t : HashTable} {c : List Nat} (l : Links t c) :
    ∀ (s pre : List Nat), c = pre ++ s → ∀ fuel, s.length ≤ fuel →
      t.walk fuel s.head? = s := by
  intro s
  induction s with
  | nil => intro pre _ fuel _; exact walk_none t fuel
  | cons a s ih =>
    intro pre hc fuel hfuel
    obtain ⟨f, rfl⟩ : ∃ f, fuel = f + 1 :=
      ⟨fuel - 1, by simp only [List.length_cons] at hfuel; omega⟩
    have hac : a ∈ c := by rw [hc]; simp
    have hnext : (t.node a).next = s.head? := by
      rw [l.next_eq a hac, hc]
      exact nextOf_append (hc ▸ l.nodup)
    simp only [List.head?_cons, walk]
    rw [hnext, ih (pre ++ [a]) (by rw [hc]; simp) f
      (by simp only [List.length_cons] at hfuel; omega)]

theorem liveCount_le (t : HashTable) : t.liveCount ≤ t.size := by
  unfold liveCount
  exact (List.length_filter_le _ _).trans (by rw [List.length_range])

theorem RepInv.walk_eq {str_hash : String → Nat} {C : Nat} {t : HashTable} {c : List Nat}
    (r : RepInv str_hash C t c) {fuel : Nat} (hfuel : t.size ≤ fuel) :
    t.walk fuel t.head = c := by
  rw [r.links.head_eq]
  apply r.links.walk_suffix c [] rfl
  rw [← r.liveCount_eq]
  exact (liveCount_le t).trans hfuel

theorem RepInv.chain_eq {str_hash : String → Nat} {C : Nat} {t : HashTable} {c : List Nat}
    (r : RepInv str_hash C t c) : t.chain = c :=
  r.walk_eq (Nat.le_refl _)

/-! ### Sequences of calls -/

theorem runOps_refines {str_hash : String → Nat} {C : Nat} {fuel : Nat} (hfuel : C ≤ fuel) :
    ∀ (ops : List Op) (t : HashTable) (c : List Nat), RepInv str_hash C t c →
      (∀ op, op ∈ ops → op.key ≠ "") → t.used + inserts ops < C →
      ∃ t' c', runOps str_hash fuel ops t = some t' ∧ RepInv str_hash C t' c' ∧
        t'.pairs c' = Model.run ops (t.pairs c) ∧ t'.used ≤ t.used + inserts ops := by
  intro ops
  induction ops with
  | nil =>
    intro t c r _ _
    exact ⟨t, c, rfl, r, rfl, Nat.le_refl _⟩
  | cons op ops ih =>
    intro t c r hkeys hcount
    have hrest : ∀ o, o ∈ ops → o.key ≠ "" := fun o ho => hkeys o (List.mem_cons_of_mem _ ho)
    cases op with
    | insert key value =>
      simp only [inserts] at hcount ⊢
      obtain ⟨t1, c1, e1, r1, p1, u1⟩ := insert_step r key value (by omega) hfuel
      obtain ⟨t', c', e', r', p', u'⟩ := ih t1 c1 r1 hrest (by omega)
      refine ⟨t', c', ?_, r', ?_, by omega⟩
      · simp only [runOps, e1, Option.some_bind]; exact e'
      · rw [p', p1]; rfl
    | remove key =>
      simp only [inserts] at hcount ⊢
      have hk : key ≠ "" := hkeys (Op.remove key) (List.mem_cons_self _ _)
      have hpos : 0 < t.size := by rw [r.index.size_eq]; exact r.index.pos
      have he : t.hasEmpty := hasEmpty_of_used_lt (by rw [r.index.size_eq]; omega)
      obtain ⟨t1, b, e1⟩ := remove_returns r.index hk he hfuel
      obtain ⟨c1, r1, p1⟩ := remove_refines r hk e1
      have u1 := used_remove hpos e1
      obtain ⟨t', c', e', r', p', u'⟩ := ih t1 c1 r1 hrest (by omega)
      refine ⟨t', c', ?_, r', ?_, by omega⟩
      · simp only [runOps, e1, Option.some_bind]; exact e'
      · rw [p', p1]; rfl

theorem get_refines {str_hash : String → Nat} {C : Nat} {t : HashTable} {c : List Nat}
    (r : RepInv str_hash C t c) (he : t.hasEmpty) {key : String} (hk : key ≠ "")
    {fuel : Nat} (hfuel : C ≤ fuel) :
    t.get str_hash fuel key = some (Model.get (t.pairs c) key) := by
  unfold Model.get
  cases hf : (t.pairs c).find? (fun p => p.1 = key) with
  | none =>
    simp only []
    apply get_of_not_mem r hk _ he hfuel
    intro p hp
    have := List.find?_eq_none.mp hf p hp
    simpa using this
  | some p =>
    simp only []
    have hmem : p ∈ t.pairs c := List.mem_of_find?_eq_some hf
    have hkey : p.1 = key := by simpa using List.find?_some hf
    exact get_of_mem r hk (show (key, p.2) ∈ t.pairs c by rw [← hkey]; exact hmem) hfuel

/-! ### The indices read while probing -/

theorem range_map_probe (str_hash : String → Nat) (t : HashTable) (key : String)
    (d n : Nat) :
    (List.range (n + 1 + 1)).map (fun e => t.probe str_hash key (d + e)) =
      t.probe str_hash key d ::
        (List.range (n + 1)).map (fun e => t.probe str_hash key (d + 1 + e)) := by
  rw [List.range_succ_eq_map, List.map_cons, List.map_map]
  congr 1
  apply List.map_congr_left
  intro e _
  simp only [Function.comp, Nat.succ_eq_add_one]
  congr 1
  omega

theorem searchReads_of_stop (str_hash : String → Nat) (t : HashTable) (key : String) :
    ∀ (n d fuel : Nat),
      (∀ e, d ≤ e → e < d + n → ¬ t.searchStop key (t.probe str_hash key e)) →
      t.searchStop key (t.probe str_hash key (d + n)) → n < fuel →
      t.searchReads key fuel (t.probe str_hash key d) =
        some ((List.range (n + 1)).map (fun e => t.probe str_hash key (d + e))) := by
  intro n
  induction n with
  | zero =>
    intro d fuel _ hstop hfuel
    obtain ⟨f, rfl⟩ : ∃ f, fuel = f + 1 := ⟨fuel - 1, by omega⟩
    have hc : ¬ ((t.node (t.probe str_hash key d)).key ≠ key ∧
        (t.node (t.probe str_hash key d)).status ≠ Status.EMPTY) := by
      rcases hstop with h | h
      · exact fun hh => hh.1 h
      · exact fun hh => hh.2 h
    simp only [searchReads]
    rw [if_neg hc]
    rfl
  | succ n ih =>
    intro d fuel hno hstop hfuel
    obtain ⟨f, rfl⟩ : ∃ f, fuel = f + 1 := ⟨fuel - 1, by omega⟩
    have h0 := hno d (Nat.le_refl d) (by omega)
    have hc : (t.node (t.probe str_hash key d)).key ≠ key ∧
        (t.node (t.probe str_hash key d)).status ≠ Status.EMPTY :=
      ⟨fun h => h0 (Or.inl h), fun h => h0 (Or.inr h)⟩
    have e : d + (n + 1) = d + 1 + n := by omega
    simp only [searchReads]
    rw [if_pos hc, probe_succ,
      ih (d + 1) f (fun e he1 he2 => hno e (by omega) (by omega)) (e ▸ hstop) (by omega),
      range_map_probe]
    rfl

theorem insertReads_of_stop (str_hash : String → Nat) (t : HashTable) (key : String) :
    ∀ (n d fuel : Nat),
      (∀ e, d ≤ e → e < d + n → ¬ t.insertStop key (t.probe str_hash key e)) →
      t.insertStop key (t.probe str_hash key (d + n)) → n < fuel →
      t.insertReads key fuel (t.probe str_hash key d) =
        some ((List.range (n + 1)).map (fun e => t.probe str_hash key (d + e))) := by
  intro n
  induction n with
  | zero =>
    intro d fuel _ hstop hfuel
    obtain ⟨f, rfl⟩ : ∃ f, fuel = f + 1 := ⟨fuel - 1, by omega⟩
    simp only [insertReads]
    rcases hstop with hE | ⟨hF, hk⟩
    · rw [Nat.add_zero] at hE
      rw [if_pos hE]
      rfl
    · rw [Nat.add_zero] at hF hk
      have hE : ¬ (t.node (t.probe str_hash key d)).status = Status.EMPTY := by
        rw [hF]; exact fun h => Status.noConfusion h
      have hR : ¬ (t.node (t.probe str_hash key d)).status = Status.REMOVED := by
        rw [hF]; exact fun h => Status.noConfusion h
      rw [if_neg hE, if_neg hR, if_pos hk]
      rfl
  | succ n ih =>
    intro d fuel hno hstop hfuel
    obtain ⟨f, rfl⟩ : ∃ f, fuel = f + 1 := ⟨fuel - 1, by omega⟩
    have h0 := hno d (Nat.le_refl d) (by omega)
    have hE : ¬ (t.node (t.probe str_hash key d)).status = Status.EMPTY :=
      fun e => h0 (Or.inl e)
    have e : d + (n + 1) = d + 1 + n := by omega
    have hrec := ih (d + 1) f (fun e he1 he2 => hno e (by omega) (by omega)) (e ▸ hstop)
      (by omega)
    simp only [insertReads]
    rw [if_neg hE]
    by_cases hR : (t.node (t.probe str_hash key d)).status = Status.REMOVED
    · rw [if_pos hR, probe_succ, hrec, range_map_probe]
      rfl
    · have hF : (t.node (t.probe str_hash key d)).status = Status.FILLED := by
        cases hs : (t.node (t.probe str_hash key d)).status
        · exact absurd hs hE
        · rfl
        · exact absurd hs hR
      have hk : ¬ (t.node (t.probe str_hash key d)).key = key :=
        fun e => h0 (Or.inr ⟨hF, e⟩)
      rw [if_neg hR, if_neg hk, probe_succ, hrec, range_map_probe]
      rfl

/-- On a table with an EMPTY slot, fewer than `size` probes come before the
first slot that ends a loop whose stop test holds on EMPTY slots. -/
theorem first_stop_lt_size (str_hash : String → Nat) (t : HashTable) (key : String)
    (P : Nat → Prop) (hP : ∀ x, (t.node x).status = Status.EMPTY → P x) (he : t.hasEmpty) :
    ∃ n, n < t.size ∧ P (t.probe str_hash key n) ∧
      ∀ m, m < n → ¬ P (t.probe str_hash key m) := by
  obtain ⟨y, hy, hyE⟩ := he
  obtain ⟨d, hd, hdp⟩ := probe_surj str_hash t key hy
  obtain ⟨n, hn, hsn, hmin⟩ :=
    exists_least (fun m => P (t.probe str_hash key m)) (hP _ (by rw [hdp]; exact hyE))
  exact ⟨n, by omega, hsn, hmin⟩

theorem getLast?_range_map (f : Nat → Nat) (n : Nat) :
    ((List.range (n + 1)).map f).getLast? = some (f n) := by
  rw [List.range_succ, List.map_append, List.map_singleton]
  simp

theorem search_bounded (str_hash : String → Nat) (t : HashTable) (key : String)
    (fuel : Nat) (he : t.hasEmpty) (hfuel : t.size ≤ fuel) :
    ∃ x rs, t.searchLoop key fuel (str_hash key % t.size) = some x ∧
      t.searchReads key fuel (str_hash key % t.size) = some rs ∧
      rs.length ≤ t.size ∧ (∀ i, i ∈ rs → i < t.size) ∧ rs.getLast? = some x := by
  have hpos : 0 < t.size := by
    obtain ⟨y, hy, -⟩ := he
    omega
  obtain ⟨n, hn, hsn, hmin⟩ := first_stop_lt_size str_hash t key (t.searchStop key)
    (fun x hx => Or.inr hx) he
  have hrun := searchLoop_of_stop str_hash t key n 0 fuel
    (fun e _ he => hmin e (by omega)) (by rw [Nat.zero_add]; exact hsn) (by omega)
  have hreads := searchReads_of_stop str_hash t key n 0 fuel
    (fun e _ he => hmin e (by omega)) (by rw [Nat.zero_add]; exact hsn) (by omega)
  refine ⟨_, _, hrun, hreads, ?_, ?_, ?_⟩
  · rw [List.length_map, List.length_range]; omega
  · intro i hi
    obtain ⟨e, -, rfl⟩ := List.mem_map.mp hi
    exact probe_lt str_hash t key _ hpos
  · exact getLast?_range_map _ n

/-! ### The `int` index of `get` -/

theorem toSizeT_natCast (i : Nat) (h : i ≤ INT_MAX) : toSizeT (i : Int) = i := by
  unfold INT_MAX at h
  unfold toSizeT
  omega

theorem toInt32_natCast (i : Nat) (h : i ≤ INT_MAX) : toInt32 (i : Int) = i := by
  unfold INT_MAX at h
  unfold toInt32
  omega

theorem nextInt_natCast (t : HashTable) (hmax : t.size ≤ INT_MAX) {i : Nat}
    (hi : i < t.size) : t.nextInt (i : Int) = (((i + 1) % t.size : Nat) : Int) := by
  have h1 : toSizeT (toInt32 ((i : Int) + 1)) = i + 1 := by
    unfold INT_MAX at hmax
    unfold toSizeT toInt32
    omega
  have h2 : (i + 1) % t.size < t.size := Nat.mod_lt _ (by omega)
  unfold nextInt
  rw [h1]
  exact toInt32_natCast _ (by omega)

theorem getIntLoop_eq (t : HashTable) (key : String) (hmax : t.size ≤ INT_MAX) :
    ∀ (fuel i : Nat), i < t.size →
      t.getIntLoop key fuel (i : Int) = (t.searchLoop key fuel i).map Int.ofNat := by
  intro fuel
  induction fuel with
  | zero => intro i _; rfl
  | succ f ih =>
    intro i hi
    simp only [getIntLoop, searchLoop]
    rw [toSizeT_natCast i (by omega), nextInt_natCast t hmax hi]
    split
    · exact ih _ (Nat.mod_lt _ (by omega))
    · rfl

theorem getIntReads_eq (t : HashTable) (key : String) (hmax : t.size ≤ INT_MAX) :
    ∀ (fuel i : Nat), i < t.size →
      t.getIntReads key fuel (i : Int) = t.searchReads key fuel i := by
  intro fuel
  induction fuel with
  | zero => intro i _; rfl
  | succ f ih =>
    intro i hi
    simp only [getIntReads, searchReads]
    rw [toSizeT_natCast i (by omega), nextInt_natCast t hmax hi]
    split
    · rw [ih _ (Nat.mod_lt _ (by omega))]
    · rfl

/-- With at least one slot and a capacity that fits an `int`, `get` with its
`int` index is `get` with a natural number as index. -/
theorem getInt_eq_get (str_hash : String → Nat) (fuel : Nat) (t : HashTable) (key : String)
    (hpos : 0 < t.size) (hmax : t.size ≤ INT_MAX) :
    t.getInt str_hash fuel key = t.get str_hash fuel key := by
  have hlt : str_hash key % t.size < t.size := Nat.mod_lt _ hpos
  unfold getInt get
  rw [toInt32_natCast _ (by omega), getIntLoop_eq t key hmax fuel _ hlt]
  cases hs : t.searchLoop key fuel (str_hash key % t.size) with
  | none => rfl
  | some x =>
    have hx : x < t.size := by
      obtain ⟨n, -, -, -, hxn⟩ := searchLoop_some str_hash t key fuel 0 x hs
      rw [hxn]
      exact probe_lt str_hash t key _ hpos
    simp only [Option.map_some', Int.ofNat_eq_coe]
    rw [toSizeT_natCast x (by omega)]

end HashTable

/-! ## The claims -/

open HashTable

/-- C1 (round-trip), evaluated on the code at a failing input.  Capacity 3,
all keys colliding: after `insert("x",1)`, `insert("",2)`, `remove("x")` the
table still has an EMPTY slot; then `insert("",5)` updates the entry of the
empty key in slot 1, but `get("")` stops at the REMOVED slot 0, whose cleared
key is also the empty string, and returns its cleared value `0` instead of `5`. -/
theorem C1_roundtrip_fails_on_empty_key :
    ∃ t1 t2 t3 t4, (HashTable.new 3).insert zeroHash 3 "x" 1 = some t1 ∧
      t1.insert zeroHash 3 "" 2 = some t2 ∧
      t2.remove zeroHash 3 "x" = some (t3, false) ∧
      t3.hasEmpty ∧
      t3.insert zeroHash 3 "" 5 = some t4 ∧
      t4.live "" 5 ∧
      t4.get zeroHash 3 "" = some (0, false) :=
  ⟨_, _, _, _, rfl, rfl, rfl, ⟨2, by decide, by decide⟩, rfl,
    ⟨1, ⟨by decide, by decide, by decide⟩, by decide⟩, rfl⟩

/-- C2 (update overwrites, not duplicates): in every state reachable from a
fresh table by `insert` and `remove` calls with any keys and any hash
function, no two FILLED slots hold the same key; two successive calls
`insert(k, v1)`, `insert(k, v2)` leave exactly one FILLED slot holding `k`,
with value `v2`; and both calls return when the state has an EMPTY slot. -/
theorem C2_update_overwrites (str_hash : String → Nat) (C : Nat) (t : HashTable)
    (hreach : Reachable str_hash C t) :
    (∀ i j key, t.holdsAt i key → t.holdsAt j key → i = j) ∧
    (∀ key v1 v2 f1 f2 t1 t2, t.insert str_hash f1 key v1 = some t1 →
      t1.insert str_hash f2 key v2 = some t2 →
      ∃ i, t2.holdsAt i key ∧ (t2.node i).value = v2 ∧ ∀ j, t2.holdsAt j key → j = i) ∧
    (∀ key v1 v2 fuel, t.hasEmpty → C ≤ fuel →
      ∃ t1 t2, t.insert str_hash fuel key v1 = some t1 ∧
        t1.insert str_hash fuel key v2 = some t2) := by
  have inv : IndexInv str_hash C t := ReachableBy.indexInv hreach
  have huniq : ∀ {u : HashTable}, IndexInv str_hash C u →
      ∀ i j key, u.holdsAt i key → u.holdsAt j key → i = j := by
    intro u invu i j key hi hj
    exact invu.uniq i j (invu.size_eq ▸ hi.1) (invu.size_eq ▸ hj.1) hi.2.1 hj.2.1
      (hi.2.2.trans hj.2.2.symm)
  refine ⟨huniq inv, ?_, ?_⟩
  · intro key v1 v2 f1 f2 t1 t2 h1 h2
    have inv1 := inv.insert h1
    have inv2 := inv1.insert h2
    have hpos1 : 0 < t1.size := by rw [inv1.size_eq]; exact inv1.pos
    obtain ⟨i, hi, hv⟩ := insert_holds hpos1 h2
    exact ⟨i, hi, hv, fun j hj => huniq inv2 j i key hj hi⟩
  · intro key v1 v2 fuel he hfuel
    obtain ⟨t1, h1⟩ := insert_returns inv key v1 he hfuel
    have inv1 := inv.insert h1
    have hpos : 0 < t.size := by rw [inv.size_eq]; exact inv.pos
    have hpos1 : 0 < t1.size := by rw [inv1.size_eq]; exact inv1.pos
    obtain ⟨i, hi, -⟩ := insert_holds hpos h1
    obtain ⟨t2, h2⟩ := insert_terminates str_hash t1 key v2 fuel hpos1
      ⟨i, hi.1, Or.inr ⟨hi.2.1, hi.2.2⟩⟩ (by rw [inv1.size_eq]; exact hfuel)
    exact ⟨t1, t2, h1, h2⟩

/-- Witness of C2 on the fresh table of capacity 2 with colliding keys. -/
theorem C2_update_overwrites_witness :
    Reachable zeroHash 2 (HashTable.new 2) ∧
      ∃ t1 t2, (HashTable.new 2).insert zeroHash 2 "k" 1 = some t1 ∧
        t1.insert zeroHash 2 "k" 2 = some t2 :=
  ⟨ReachableBy.fresh (by decide),
    (C2_update_overwrites zeroHash 2 (HashTable.new 2) (ReachableBy.fresh (by decide))).2.2
      "k" 1 2 2 ⟨0, by decide, by decide⟩ (Nat.le_refl 2)⟩

/-- C4 (order correctness): on a fresh table of capacity at least 4, for
every hash function and pairwise distinct keys `A`, `B`, `K`, the calls
`insert(A,a)`, `insert(B,b)`, `insert(K,c)` return and `get_last()` is then
`(K,c)`; a further `insert(A,a')` returns, after which `get_last()` is
`(A,a')` and `get_first()` is `(B,b)`. -/
theorem C4_order_correctness (str_hash : String → Nat) (C : Nat) (A B K : String)
    (a b c a' : Int) (fuel : Nat) (hC : 4 ≤ C) (hAB : A ≠ B) (hAK : A ≠ K) (hBK : B ≠ K)
    (hfuel : C ≤ fuel) :
    ∃ t1 t2 t3 t4, (HashTable.new C).insert str_hash fuel A a = some t1 ∧
      t1.insert str_hash fuel B b = some t2 ∧
      t2.insert str_hash fuel K c = some t3 ∧
      t3.get_last = (K, c) ∧
      t3.insert str_hash fuel A a' = some t4 ∧
      t4.get_last = (A, a') ∧ t4.get_first = (B, b) := by
  have r0 := RepInv.rep_new str_hash (show 0 < C by omega)
  have u0 := used_new C
  obtain ⟨t1, c1, e1, r1, p1, u1⟩ := insert_step r0 A a (by omega) hfuel
  obtain ⟨t2, c2, e2, r2, p2, u2⟩ := insert_step r1 B b (by omega) hfuel
  obtain ⟨t3, c3, e3, r3, p3, u3⟩ := insert_step r2 K c (by omega) hfuel
  obtain ⟨t4, c4, e4, r4, p4, u4⟩ := insert_step r3 A a' (by omega) hfuel
  have q3 : t3.pairs c3 = [(K, c), (B, b), (A, a)] := by
    rw [p3, p2, p1]
    simp [Model.insert, pairs, hAB, hAK, hBK]
  have q4 : t4.pairs c4 = [(A, a'), (K, c), (B, b)] := by
    rw [p4, q3]
    simp [Model.insert, hAB.symm, hAK.symm]
  refine ⟨t1, t2, t3, t4, e1, e2, e3, ?_, e4, ?_, ?_⟩
  · rw [get_last_eq r3.links, q3]; rfl
  · rw [get_last_eq r4.links, q4]; rfl
  · rw [get_first_eq r4.links, q4]; rfl

/-- Witness of C4: capacity 4, colliding keys `"A"`, `"B"`, `"C"`. -/
theorem C4_order_correctness_witness :
    ∃ t1 t2 t3 t4, (HashTable.new 4).insert zeroHash 4 "A" 1 = some t1 ∧
      t1.insert zeroHash 4 "B" 2 = some t2 ∧
      t2.insert zeroHash 4 "C" 3 = some t3 ∧
      t3.get_last = ("C", 3) ∧
      t3.insert zeroHash 4 "A" 10 = some t4 ∧
      t4.get_last = ("A", 10) ∧ t4.get_first = ("B", 2) :=
  C4_order_correctness zeroHash 4 "A" "B" "C" 1 2 3 10 4 (Nat.le_refl 4) (by decide)
    (by decide) (by decide) (Nat.le_refl 4)

/-- C5 (removal updates endpoints): in a state reachable with non-empty keys
that has an EMPTY slot, if `get_last()` is `(k, v)` and at least two entries
are live, `remove(k)` finds the key and afterwards `get_last()` is the pair of
the FILLED slot that was the `next` of the old head; and if exactly one entry
is live, removing its key makes `get_last()` and `get_first()` both `("", -1)`. -/
theorem C5_removal_updates_endpoints (str_hash : String → Nat) (C : Nat) (t : HashTable)
    (k : String) (v : Int) (fuel : Nat)
    (hreach : ReachableNE str_hash C t) (_he : t.hasEmpty) (hfuel : C ≤ fuel) :
    (2 ≤ t.liveCount → t.get_last = (k, v) →
      ∃ t' i j, t.remove str_hash fuel k = some (t', false) ∧ t.head = some i ∧
        (t.node i).next = some j ∧ (t.node j).status = Status.FILLED ∧
        t'.get_last = (t.node j).get_key_value) ∧
    (t.liveCount = 1 → t.live k v →
      ∃ t', t.remove str_hash fuel k = some (t', false) ∧
        t'.get_last = ("", -1) ∧ t'.get_first = ("", -1)) := by
  obtain ⟨c, r⟩ := ReachableBy.repInv (fun _ hk => hk) hreach
  have hkey := ReachableBy.key_ne (fun _ hk => hk) hreach
  constructor
  · intro hlive hlast
    rw [r.liveCount_eq] at hlive
    match c, r, hlive with
    | i :: j :: rest, r, _ =>
      have hic : i ∈ i :: j :: rest := List.mem_cons_self _ _
      have hjc : j ∈ i :: j :: rest := List.mem_cons_of_mem _ (List.mem_cons_self _ _)
      obtain ⟨hilt, hiF⟩ := (r.covers i).mp hic
      obtain ⟨hjlt, hjF⟩ := (r.covers j).mp hjc
      have hhead : t.head = some i := r.links.head_eq
      have hik : (t.node i).key = k := by
        have e : t.get_last = (t.node i).get_key_value := by
          unfold get_last; rw [hhead]
        rw [e] at hlast
        exact congrArg Prod.fst hlast
      have hi : t.holdsAt i k := ⟨hilt, hiF, hik⟩
      have hk : k ≠ "" := hik ▸ hkey i hiF
      have hji : j ≠ i := by
        intro e
        have hnd := r.links.nodup
        rw [e] at hnd
        exact (List.nodup_cons.mp hnd).1 (List.mem_cons_self _ _)
      obtain ⟨r', -⟩ := r.rep_removeAt hi
      rw [List.erase_cons_head] at r'
      have hne : (t.node i).status ≠ Status.EMPTY := by rw [hiF]; decide
      have hp := status_key_removeAt t i j hilt hne
      simp only [if_neg hji] at hp
      refine ⟨_, i, j, remove_found r.index hk hi hfuel, hhead, ?_, hjF, ?_⟩
      · rw [r.links.next_eq i hic, nextOf_cons_self]; rfl
      · have e : (t.removeAt i).1.get_last = ((t.removeAt i).1.node j).get_key_value := by
          unfold get_last; rw [r'.links.head_eq]; rfl
        rw [e]
        simp [Node.get_key_value, hp.2.1, hp.2.2]
  · intro hlive hkv
    rw [r.liveCount_eq] at hlive
    obtain ⟨x, hx, -⟩ := hkv
    have hk : k ≠ "" := hx.2.2 ▸ hkey x hx.2.1
    match c, r, hlive with
    | [i], r, _ =>
      have hxc : x ∈ [i] := (r.covers x).mpr ⟨hx.1, hx.2.1⟩
      have hxi : x = i := by simpa using hxc
      subst hxi
      obtain ⟨r', -⟩ := r.rep_removeAt hx
      rw [List.erase_cons_head] at r'
      refine ⟨_, remove_found r.index hk hx hfuel, ?_, ?_⟩
      · unfold get_last; rw [r'.links.head_eq]; rfl
      · unfold get_first; rw [r'.links.tail_eq]; rfl

/-- Witness of C5: capacity 4, colliding keys, after `insert("a",1)` and
`insert("b",2)`; `get_last()` is `("b",2)` and two entries are live. -/
theorem C5_removal_updates_endpoints_witness :
    ∃ t1 t2, (HashTable.new 4).insert zeroHash 4 "a" 1 = some t1 ∧
      t1.insert zeroHash 4 "b" 2 = some t2 ∧
      ∃ t' i j, t2.remove zeroHash 4 "b" = some (t', false) ∧ t2.head = some i ∧
        (t2.node i).next = some j ∧ (t2.node j).status = Status.FILLED ∧
        t'.get_last = (t2.node j).get_key_value :=
  ⟨_, _, rfl, rfl,
    (C5_removal_updates_endpoints zeroHash 4 _ "b" 2 4
      (ReachableBy.insert 4 "b" 2 (by decide)
        (ReachableBy.insert 4 "a" 1 (by decide) (ReachableBy.fresh (by decide)) rfl) rfl)
      ⟨2, by decide, by decide⟩ (Nat.le_refl 4)).1 (by decide) rfl⟩

/-- C6 (idempotent absence), evaluated on the code at a failing input.
Capacity 3, all keys colliding: after `insert("x",1)`, `insert("y",2)`,
`remove("x")` no FILLED slot holds the empty key and slot 2 is EMPTY, yet
`remove("")` stops at the REMOVED slot 0, prints no `not found` and sets
`head` and `tail` to `NULL`, so the table is changed. -/
theorem C6_remove_absent_empty_key_changes_table :
    ∃ t1 t2 t3 t4, (HashTable.new 3).insert zeroHash 3 "x" 1 = some t1 ∧
      t1.insert zeroHash 3 "y" 2 = some t2 ∧
      t2.remove zeroHash 3 "x" = some (t3, false) ∧
      t3.hasEmpty ∧ (∀ i, ¬ t3.holdsAt i "") ∧
      t3.remove zeroHash 3 "" = some (t4, false) ∧
      t3.head = some 1 ∧ t3.tail = some 1 ∧ t4.head = none ∧ t4.tail = none ∧ t4 ≠ t3 := by
  refine ⟨_, _, _, _, rfl, rfl, rfl, ⟨2, by decide, by decide⟩, ?_, rfl, rfl, rfl, rfl, rfl,
    by decide⟩
  rintro i ⟨hi, hF, hk⟩
  have hi' : i < 3 := hi
  interval_cases i
  · exact absurd hF (by decide)
  · exact absurd hk (by decide)
  · exact absurd hF (by decide)

/-- C7 (KeyNotFound on lookup), evaluated on the code at a failing input.
Capacity 3: after `insert("x",1)` and `remove("x")` no FILLED slot holds the
empty key and slots 1 and 2 are EMPTY, yet `get("")` takes the REMOVED slot 0
for a match: it returns `0`, not `-1`, and prints no `not found`. -/
theorem C7_get_absent_empty_key_matches_removed :
    ∃ t1 t2, (HashTable.new 3).insert zeroHash 3 "x" 1 = some t1 ∧
      t1.remove zeroHash 3 "x" = some (t2, false) ∧
      t2.hasEmpty ∧ (∀ i, ¬ t2.holdsAt i "") ∧
      (t2.node 0).status = Status.REMOVED ∧
      t2.get zeroHash 3 "" = some (0, false) := by
  refine ⟨_, _, rfl, rfl, ⟨2, by decide, by decide⟩, ?_, rfl, rfl⟩
  rintro i ⟨hi, hF, hk⟩
  have hi' : i < 3 := hi
  interval_cases i <;> exact absurd hF (by decide)

/-- C8 (end-to-end scenario): on a fresh table of capacity 8, for every hash
function, `insert("a",1)`, `insert("b",2)`, `insert("c",3)` return; then
`get("b")` returns `2` as found; `remove("a")` finds the key; afterwards
`get("a")` returns `-1` and reports not-found, `get_last()` is `("c",3)` and
`get_first()` is `("b",2)`. -/
theorem C8_end_to_end (str_hash : String → Nat) (fuel : Nat) (hfuel : 8 ≤ fuel) :
    ∃ t1 t2 t3 t4, (HashTable.new 8).insert str_hash fuel "a" 1 = some t1 ∧
      t1.insert str_hash fuel "b" 2 = some t2 ∧
      t2.insert str_hash fuel "c" 3 = some t3 ∧
      t3.get str_hash fuel "b" = some (2, false) ∧
      t3.remove str_hash fuel "a" = some (t4, false) ∧
      t4.get str_hash fuel "a" = some (-1, true) ∧
      t4.get_last = ("c", 3) ∧ t4.get_first = ("b", 2) := by
  have r0 := RepInv.rep_new str_hash (show 0 < 8 by decide)
  have u0 := used_new 8
  obtain ⟨t1, c1, e1, r1, p1, u1⟩ := insert_step r0 "a" 1 (by omega) hfuel
  obtain ⟨t2, c2, e2, r2, p2, u2⟩ := insert_step r1 "b" 2 (by omega) hfuel
  obtain ⟨t3, c3, e3, r3, p3, u3⟩ := insert_step r2 "c" 3 (by omega) hfuel
  have q3 : t3.pairs c3 = [("c", 3), ("b", 2), ("a", 1)] := by
    rw [p3, p2, p1]
    simp [Model.insert, pairs]
  obtain ⟨t4, c4, e4, r4, p4, u4⟩ :=
    remove_step r3 "a" 1 (by decide) (by rw [q3]; simp) hfuel
  have q4 : t4.pairs c4 = [("c", 3), ("b", 2)] := by
    rw [p4, q3]
    simp [Model.remove]
  have he4 : t4.hasEmpty := hasEmpty_of_used_lt (by rw [r4.index.size_eq]; omega)
  refine ⟨t1, t2, t3, t4, e1, e2, e3, ?_, e4, ?_, ?_, ?_⟩
  · exact get_of_mem r3 (by decide) (by rw [q3]; simp) hfuel
  · apply get_of_not_mem r4 (by decide) _ he4 hfuel
    intro p hp
    rw [q4] at hp
    simp only [List.mem_cons, List.mem_singleton, List.not_mem_nil, or_false] at hp
    rcases hp with rfl | rfl <;> decide
  · rw [get_last_eq r4.links, q4]; rfl
  · rw [get_first_eq r4.links, q4]; rfl

/-- Witness of C8 with all keys colliding and 8 loop iterations allowed. -/
theorem C8_end_to_end_witness :
    ∃ t1 t2 t3 t4, (HashTable.new 8).insert zeroHash 8 "a" 1 = some t1 ∧
      t1.insert zeroHash 8 "b" 2 = some t2 ∧
      t2.insert zeroHash 8 "c" 3 = some t3 ∧
      t3.get zeroHash 8 "b" = some (2, false) ∧
      t3.remove zeroHash 8 "a" = some (t4, false) ∧
      t4.get zeroHash 8 "a" = some (-1, true) ∧
      t4.get_last = ("c", 3) ∧ t4.get_first = ("b", 2) :=
  C8_end_to_end zeroHash 8 (Nat.le_refl 8)

/-- C9 as stated fails.  Capacity 1: after `insert("a",1)` and `remove("a")`
the only slot is REMOVED, so the capacity (1) exceeds the number of live
entries (0) and the probe sequence of `"b"` meets a REMOVED slot at once; yet
`insert("b",2)` never returns, whatever the number of iterations allowed. -/
theorem C9_counterexample :
    ∃ t1 t2, (HashTable.new 1).insert zeroHash 1 "a" 1 = some t1 ∧
      t1.remove zeroHash 1 "a" = some (t2, false) ∧
      t2.liveCount < t2.size ∧
      (t2.node (t2.probe zeroHash "b" 0)).status = Status.REMOVED ∧
      ∀ fuel, t2.insert zeroHash fuel "b" 2 = none := by
  refine ⟨_, _, rfl, rfl, by decide, rfl, ?_⟩
  apply insert_diverges zeroHash _ "b" 2 (by decide)
  intro x hx
  have hx' : x < 1 := hx
  interval_cases x
  unfold insertStop
  decide

/-- C9 as amended: on a table with at least one slot, `insert(k, v)` returns
and makes `(k, v)` live whenever the table has an EMPTY slot or a FILLED slot
holding `k`; when it has neither, `insert(k, v)` never returns, REMOVED slots
or not. -/
theorem C9_insert_needs_empty_slot (str_hash : String → Nat) (t : HashTable)
    (k : String) (v : Int) (hpos : 0 < t.size) :
    ((t.hasEmpty ∨ ∃ i, t.holdsAt i k) → ∀ fuel, t.size ≤ fuel →
      ∃ t', t.insert str_hash fuel k v = some t' ∧ t'.live k v) ∧
    (¬ t.hasEmpty → (∀ i, ¬ t.holdsAt i k) →
      ∀ fuel, t.insert str_hash fuel k v = none) := by
  constructor
  · intro h fuel hfuel
    have hstop : ∃ x, x < t.size ∧ t.insertStop k x := by
      rcases h with ⟨x, hx, hE⟩ | ⟨i, hi, hF, hk⟩
      · exact ⟨x, hx, Or.inl hE⟩
      · exact ⟨i, hi, Or.inr ⟨hF, hk⟩⟩
    obtain ⟨t', ht'⟩ := insert_terminates str_hash t k v fuel hpos hstop hfuel
    exact ⟨t', ht', insert_holds hpos ht'⟩
  · intro hne hno
    apply insert_diverges str_hash t k v hpos
    intro x hx hstop
    rcases hstop with hE | ⟨hF, hk⟩
    · exact hne ⟨x, hx, hE⟩
    · exact hno x ⟨hx, hF, hk⟩

/-- Witness of C9 as amended, on the fresh table of capacity 2. -/
theorem C9_insert_needs_empty_slot_witness :
    0 < (HashTable.new 2).size ∧
      ∃ t', (HashTable.new 2).insert zeroHash 2 "a" 1 = some t' ∧ t'.live "a" 1 :=
  ⟨by decide,
    (C9_insert_needs_empty_slot zeroHash (HashTable.new 2) "a" 1 (by decide)).1
      (Or.inl ⟨0, by decide, by decide⟩) 2 (Nat.le_refl 2)⟩

/-- C10 (accessors return only existing pairs), evaluated on the code at a
failing input.  Capacity 4, all keys colliding: `insert("x",1)`,
`insert("a",2)`, `insert("b",3)`, `remove("x")`, `remove("")`, `remove("b")`,
`insert("d",4)`, `remove("d")`.  The call `remove("")` takes the REMOVED slot
0 for a match and sets `head` and `tail` to `NULL` while `"a"` and `"b"` are
live; in the end `tail` points to the REMOVED slot 0 and `get_first()`
returns `("", 0)`, a pair that is neither the empty result nor stored in a
FILLED slot, although `("a", 2)` is live. -/
theorem C10_get_first_returns_removed_slot :
    ∃ t1 t2 t3 t4 t5 t6 t7 t8,
      (HashTable.new 4).insert zeroHash 4 "x" 1 = some t1 ∧
      t1.insert zeroHash 4 "a" 2 = some t2 ∧
      t2.insert zeroHash 4 "b" 3 = some t3 ∧
      t3.remove zeroHash 4 "x" = some (t4, false) ∧
      t4.remove zeroHash 4 "" = some (t5, false) ∧
      t5.remove zeroHash 4 "b" = some (t6, false) ∧
      t6.insert zeroHash 4 "d" 4 = some t7 ∧
      t7.remove zeroHash 4 "d" = some (t8, false) ∧
      t8.tail = some 0 ∧ (t8.node 0).status = Status.REMOVED ∧
      t8.get_first = ("", 0) ∧ t8.live "a" 2 ∧ (∀ v, ¬ t8.live "" v) := by
  refine ⟨_, _, _, _, _, _, _, _, rfl, rfl, rfl, rfl, rfl, rfl, rfl, rfl, rfl, rfl, rfl,
    ⟨1, ⟨by decide, by decide, by decide⟩, by decide⟩, ?_⟩
  rintro v ⟨i, ⟨hi, hF, hk⟩, -⟩
  have hi' : i < 4 := hi
  interval_cases i
  · exact absurd hF (by decide)
  · exact absurd hk (by decide)
  · exact absurd hF (by decide)
  · exact absurd hF (by decide)

/-- C12 (probe invariant): in every state reachable from a fresh table by
`insert` and `remove` calls with any keys and any hash function, every FILLED
slot `i` is met by the linear probe sequence of its key, `hash(k) mod C`,
`+1`, `+2`, ... modulo `C`, within fewer than `C` steps and before any EMPTY
slot. -/
theorem C12_probe_invariant (str_hash : String → Nat) (C : Nat) (t : HashTable)
    (hreach : Reachable str_hash C t) (i : Nat) (hi : i < t.size)
    (hF : (t.node i).status = Status.FILLED) :
    t.size = C ∧
    ∃ d, d < C ∧ t.probe str_hash (t.node i).key d = i ∧
      ∀ e, e < d → (t.node (t.probe str_hash (t.node i).key e)).status ≠ Status.EMPTY := by
  have inv : IndexInv str_hash C t := ReachableBy.indexInv hreach
  exact ⟨inv.size_eq, inv.probe_ok i (inv.size_eq ▸ hi) hF⟩

/-- Witness of C12: capacity 3, colliding keys, after `insert("a",1)` and
`insert("b",2)`; slot 1 holds `"b"` and is met after the FILLED slot 0. -/
theorem C12_probe_invariant_witness :
    ∃ t1 t2, (HashTable.new 3).insert zeroHash 3 "a" 1 = some t1 ∧
      t1.insert zeroHash 3 "b" 2 = some t2 ∧
      (t2.node 1).status = Status.FILLED ∧
      ∃ d, d < 3 ∧ t2.probe zeroHash (t2.node 1).key d = 1 ∧
        ∀ e, e < d → (t2.node (t2.probe zeroHash (t2.node 1).key e)).status ≠ Status.EMPTY :=
  ⟨_, _, rfl, rfl, rfl,
    (C12_probe_invariant zeroHash 3 _
      (ReachableBy.insert 3 "b" 2 trivial
        (ReachableBy.insert 3 "a" 1 trivial (ReachableBy.fresh (by decide)) rfl) rfl)
      1 (by decide) rfl).2⟩

/-- C15 (tombstone reuse): in every reachable state with an EMPTY slot, for a
key `k` that no FILLED slot holds, `insert(k, v)` returns and writes the pair
into the insertion point `s`: the first REMOVED slot met by the probe sequence
of `k` before its first EMPTY slot if there is one, otherwise that first EMPTY
slot.  Slot `s` was not FILLED and becomes FILLED with `(k, v)`; no other
slot changes its status, key or value. -/
theorem C15_tombstone_reuse (str_hash : String → Nat) (C : Nat) (t : HashTable)
    (k : String) (v : Int) (fuel : Nat) (hreach : Reachable str_hash C t)
    (he : t.hasEmpty) (hno : ∀ i, ¬ t.holdsAt i k) (hfuel : C ≤ fuel) :
    ∃ t' s, t.insert str_hash fuel k v = some t' ∧ t.InsertionPoint str_hash k s ∧
      s < t.size ∧ (t.node s).status ≠ Status.FILLED ∧
      (t'.node s).status = Status.FILLED ∧ (t'.node s).key = k ∧ (t'.node s).value = v ∧
      ∀ j, j ≠ s → (t'.node j).status = (t.node j).status ∧
        (t'.node j).key = (t.node j).key ∧ (t'.node j).value = (t.node j).value := by
  have inv : IndexInv str_hash C t := ReachableBy.indexInv hreach
  have hpos : 0 < t.size := by rw [inv.size_eq]; exact inv.pos
  obtain ⟨t', h⟩ := insert_returns inv k v he hfuel
  rcases insert_spec inv h with ⟨i, hi, -⟩ | ⟨-, s, hs, rfl⟩
  · exact absurd hi (hno i)
  · obtain ⟨hlt, hsF, -⟩ := hs.facts hpos
    have hp := fun j => payload_insertAt t s j k v hlt
    refine ⟨_, s, h, hs, hlt, hsF, ?_, ?_, ?_, ?_⟩
    · rw [(hp s).1, if_pos rfl]
    · rw [(hp s).2.1, if_pos rfl]
    · rw [(hp s).2.2, if_pos rfl]
    · intro j hj
      have := hp j
      simp only [if_neg hj] at this
      exact this

/-- Witness of C15: capacity 3, colliding keys, after `insert("x",1)`,
`insert("y",2)`, `remove("x")`: slot 0 is REMOVED, slot 1 holds `"y"`, slot 2
is EMPTY, and `"z"` is not live. -/
theorem C15_tombstone_reuse_witness :
    ∃ t1 t2 t3, (HashTable.new 3).insert zeroHash 3 "x" 1 = some t1 ∧
      t1.insert zeroHash 3 "y" 2 = some t2 ∧
      t2.remove zeroHash 3 "x" = some (t3, false) ∧
      ∃ t' s, t3.insert zeroHash 3 "z" 3 = some t' ∧ t3.InsertionPoint zeroHash "z" s ∧
        s < t3.size ∧ (t3.node s).status ≠ Status.FILLED ∧
        (t'.node s).status = Status.FILLED ∧ (t'.node s).key = "z" ∧
        (t'.node s).value = 3 ∧
        ∀ j, j ≠ s → (t'.node j).status = (t3.node j).status ∧
          (t'.node j).key = (t3.node j).key ∧ (t'.node j).value = (t3.node j).value :=
  ⟨_, _, _, rfl, rfl, rfl,
    C15_tombstone_reuse zeroHash 3 _ "z" 3 3
      (ReachableBy.remove 3 "x" trivial
        (ReachableBy.insert 3 "y" 2 trivial
          (ReachableBy.insert 3 "x" 1 trivial (ReachableBy.fresh (by decide)) rfl) rfl) rfl)
      ⟨2, by decide, by decide⟩
      (by
        rintro i ⟨hi, hF, hk⟩
        have hi' : i < 3 := hi
        interval_cases i
        · exact absurd hF (by decide)
        · exact absurd hk (by decide)
        · exact absurd hF (by decide))
      (Nat.le_refl 3)⟩

/-- C16 (update in place): in every reachable state, for a key `k` held by
the FILLED slot `i`, `insert(k, v')` returns, leaves the status and the key
of every slot unchanged, sets the value of slot `i` to `v'` and leaves the
value of every other slot unchanged, whatever REMOVED slots precede `i` on
the probe sequence of `k`. -/
theorem C16_update_in_place (str_hash : String → Nat) (C : Nat) (t : HashTable)
    (k : String) (i : Nat) (v' : Int) (fuel : Nat) (hreach : Reachable str_hash C t)
    (hi : t.holdsAt i k) (hfuel : C ≤ fuel) :
    ∃ t', t.insert str_hash fuel k v' = some t' ∧
      (∀ j, (t'.node j).status = (t.node j).status ∧ (t'.node j).key = (t.node j).key) ∧
      (t'.node i).value = v' ∧
      ∀ j, j ≠ i → (t'.node j).value = (t.node j).value := by
  have inv : IndexInv str_hash C t := ReachableBy.indexInv hreach
  have hpos : 0 < t.size := by rw [inv.size_eq]; exact inv.pos
  obtain ⟨t', h⟩ := insert_terminates str_hash t k v' fuel hpos
    ⟨i, hi.1, Or.inr ⟨hi.2.1, hi.2.2⟩⟩ (by rw [inv.size_eq]; exact hfuel)
  rcases insert_spec inv h with ⟨i', hi', rfl⟩ | ⟨hno, -⟩
  · have e : i' = i := inv.uniq i' i (inv.size_eq ▸ hi'.1) (inv.size_eq ▸ hi.1) hi'.2.1
      hi.2.1 (hi'.2.2.trans hi.2.2.symm)
    subst e
    have hp := fun j => payload_updateAt t i' j k v' hi.1
    refine ⟨_, h, ?_, ?_, ?_⟩
    · intro j
      rw [(hp j).1, (hp j).2.1]
      by_cases hj : j = i'
      · subst hj; simp [hi.2.1, hi.2.2]
      · simp [hj]
    · rw [(hp i').2.2, if_pos rfl]
    · intro j hj
      rw [(hp j).2.2, if_neg hj]
  · exact absurd hi (hno i)

/-- Witness of C16: capacity 3, colliding keys, after `insert("x",1)`,
`insert("y",2)`, `remove("x")`: `"y"` sits in slot 1 behind the REMOVED slot 0
and `insert("y",9)` updates it there. -/
theorem C16_update_in_place_witness :
    ∃ t1 t2 t3, (HashTable.new 3).insert zeroHash 3 "x" 1 = some t1 ∧
      t1.insert zeroHash 3 "y" 2 = some t2 ∧
      t2.remove zeroHash 3 "x" = some (t3, false) ∧
      (t3.node 0).status = Status.REMOVED ∧
      ∃ t', t3.insert zeroHash 3 "y" 9 = some t' ∧
        (∀ j, (t'.node j).status = (t3.node j).status ∧ (t'.node j).key = (t3.node j).key) ∧
        (t'.node 1).value = 9 ∧
        ∀ j, j ≠ 1 → (t'.node j).value = (t3.node j).value :=
  ⟨_, _, _, rfl, rfl, rfl, rfl,
    C16_update_in_place zeroHash 3 _ "y" 1 9 3
      (ReachableBy.remove 3 "x" trivial
        (ReachableBy.insert 3 "y" 2 trivial
          (ReachableBy.insert 3 "x" 1 trivial (ReachableBy.fresh (by decide)) rfl) rfl) rfl)
      ⟨by decide, by decide, by decide⟩ (Nat.le_refl 3)⟩

/-- C17 (slot state machine): on any table state, a returning `insert` keeps
the capacity and leaves each slot's status as it was or takes it from EMPTY
to FILLED or from REMOVED to FILLED; a returning `remove` keeps the capacity
and leaves each slot's status as it was or takes it from FILLED to REMOVED;
so neither turns a slot EMPTY that was not EMPTY before.  (`get` only returns
a value: it has no table to change.) -/
theorem C17_slot_state_machine (str_hash : String → Nat) (t : HashTable) :
    (∀ fuel key value t', t.insert str_hash fuel key value = some t' →
      t'.size = t.size ∧
      (∀ j, (t'.node j).status = (t.node j).status ∨
        ((t.node j).status = Status.EMPTY ∧ (t'.node j).status = Status.FILLED) ∨
        ((t.node j).status = Status.REMOVED ∧ (t'.node j).status = Status.FILLED)) ∧
      ∀ j, (t'.node j).status = Status.EMPTY → (t.node j).status = Status.EMPTY) ∧
    (∀ fuel key t' b, t.remove str_hash fuel key = some (t', b) →
      t'.size = t.size ∧
      (∀ j, (t'.node j).status = (t.node j).status ∨
        ((t.node j).status = Status.FILLED ∧ (t'.node j).status = Status.REMOVED)) ∧
      ∀ j, (t'.node j).status = Status.EMPTY → (t.node j).status = Status.EMPTY) := by
  constructor
  · intro fuel key value t' h
    obtain ⟨hsize, hstep⟩ := insertLoop_status t key value fuel _ t.size t'
      (fun hne => absurd rfl hne) h
    refine ⟨hsize, hstep, ?_⟩
    intro j hE
    rcases hstep j with h1 | ⟨-, h2⟩ | ⟨-, h2⟩
    · rw [← h1]; exact hE
    · rw [hE] at h2; exact absurd h2 (by decide)
    · rw [hE] at h2; exact absurd h2 (by decide)
  · intro fuel key t' b h
    obtain ⟨hsize, hstep⟩ := remove_status h
    refine ⟨hsize, hstep, ?_⟩
    intro j hE
    rcases hstep j with h1 | ⟨-, h2⟩
    · rw [← h1]; exact hE
    · rw [hE] at h2; exact absurd h2 (by decide)

/-- Witness of C17: `insert("a",1)` on the fresh table of capacity 2. -/
theorem C17_slot_state_machine_witness :
    ∃ t', (HashTable.new 2).insert zeroHash 2 "a" 1 = some t' ∧
      t'.size = (HashTable.new 2).size ∧
      ∀ j, (t'.node j).status = Status.EMPTY → ((HashTable.new 2).node j).status = Status.EMPTY :=
  ⟨_, rfl,
    ((C17_slot_state_machine zeroHash (HashTable.new 2)).1 2 "a" 1 _ rfl).1,
    ((C17_slot_state_machine zeroHash (HashTable.new 2)).1 2 "a" 1 _ rfl).2.2⟩

/-- C13 (chain invariant): in every state reachable with non-empty keys, the
walk along `next` from `head` ends at `NULL` within `size` steps, visits
every FILLED slot and no other, each once, and its last slot is `tail`; on
the chain `prev` is the exact inverse of `next`, only `head` has no `prev`
and only `tail` has no `next`; `head` is `NULL` iff `tail` is `NULL` iff no
slot is FILLED; and the chain has as many slots as there are FILLED slots. -/
theorem C13_chain_invariant (str_hash : String → Nat) (C : Nat) (t : HashTable)
    (hreach : ReachableNE str_hash C t) :
    (∀ fuel, t.size ≤ fuel → t.walk fuel t.head = t.chain) ∧
    t.chain.Nodup ∧
    (∀ i, i ∈ t.chain ↔ i < t.size ∧ (t.node i).status = Status.FILLED) ∧
    t.chain.getLast? = t.tail ∧
    (∀ i j, i ∈ t.chain → j ∈ t.chain →
      ((t.node i).next = some j ↔ (t.node j).prev = some i)) ∧
    (∀ i, i ∈ t.chain → ((t.node i).prev = none ↔ t.head = some i) ∧
      ((t.node i).next = none ↔ t.tail = some i)) ∧
    (t.head = none ↔ t.liveCount = 0) ∧ (t.tail = none ↔ t.liveCount = 0) ∧
    t.chain.length = t.liveCount := by
  obtain ⟨c, r⟩ := ReachableBy.repInv (fun _ hk => hk) hreach
  have hc : t.chain = c := r.chain_eq
  rw [hc]
  have hlen : t.liveCount = c.length := r.liveCount_eq
  refine ⟨fun fuel hfuel => r.walk_eq hfuel, r.links.nodup, r.covers, r.links.tail_eq.symm,
    ?_, ?_, ?_, ?_, hlen.symm⟩
  · intro i j hi hj
    rw [r.links.next_eq i hi, r.links.prev_eq j hj]
    exact nextOf_eq_some_iff r.links.nodup j i
  · intro i hi
    rw [r.links.next_eq i hi, r.links.prev_eq i hi, r.links.head_eq, r.links.tail_eq]
    exact ⟨prevOf_eq_none_iff r.links.nodup hi, nextOf_eq_none_iff r.links.nodup hi⟩
  · rw [r.links.head_eq, hlen, List.head?_eq_none_iff, List.length_eq_zero]
  · rw [r.links.tail_eq, hlen, List.getLast?_eq_none_iff, List.length_eq_zero]

/-- Witness of C13: capacity 4, colliding keys, after `insert("a",1)`,
`insert("b",2)`, `remove("a")`. -/
theorem C13_chain_invariant_witness :
    ∃ t1 t2 t3, (HashTable.new 4).insert zeroHash 4 "a" 1 = some t1 ∧
      t1.insert zeroHash 4 "b" 2 = some t2 ∧
      t2.remove zeroHash 4 "a" = some (t3, false) ∧
      t3.chain.Nodup ∧
      (∀ i, i ∈ t3.chain ↔ i < t3.size ∧ (t3.node i).status = Status.FILLED) ∧
      t3.chain.getLast? = t3.tail ∧ t3.chain.length = t3.liveCount :=
  ⟨_, _, _, rfl, rfl, rfl,
    (C13_chain_invariant zeroHash 4 _
      (ReachableBy.remove 4 "a" (by decide)
        (ReachableBy.insert 4 "b" 2 (by decide)
          (ReachableBy.insert 4 "a" 1 (by decide) (ReachableBy.fresh (by decide)) rfl) rfl)
        rfl)).2.1,
    (C13_chain_invariant zeroHash 4 _
      (ReachableBy.remove 4 "a" (by decide)
        (ReachableBy.insert 4 "b" 2 (by decide)
          (ReachableBy.insert 4 "a" 1 (by decide) (ReachableBy.fresh (by decide)) rfl) rfl)
        rfl)).2.2.1,
    (C13_chain_invariant zeroHash 4 _
      (ReachableBy.remove 4 "a" (by decide)
        (ReachableBy.insert 4 "b" 2 (by decide)
          (ReachableBy.insert 4 "a" 1 (by decide) (ReachableBy.fresh (by decide)) rfl) rfl)
        rfl)).2.2.2.1,
    (C13_chain_invariant zeroHash 4 _
      (ReachableBy.remove 4 "a" (by decide)
        (ReachableBy.insert 4 "b" 2 (by decide)
          (ReachableBy.insert 4 "a" 1 (by decide) (ReachableBy.fresh (by decide)) rfl) rfl)
        rfl)).2.2.2.2.2.2.2.2⟩

/-- Refinement of the reference model for non-empty keys: for every hash
function, capacity `C > 0` and sequence of `insert`/`remove` calls with
non-empty keys and fewer than `C` inserts, all the calls return and the
resulting table agrees with the model run on the same calls: the pairs met
walking from `head` along `next` are the model list, `get(k)` for a non-empty
key gives the model's answer, `get_last()` is the model's first pair and
`get_first()` its last pair, or `("", -1)` when the model is empty. -/
theorem refines_association_list (str_hash : String → Nat) (C : Nat) (ops : List Op)
    (fuel : Nat) (hC : 0 < C) (hkeys : ∀ op, op ∈ ops → op.key ≠ "")
    (hcount : inserts ops < C) (hfuel : C ≤ fuel) :
    ∃ t, runOps str_hash fuel ops (HashTable.new C) = some t ∧
      t.pairs t.chain = Model.run ops [] ∧
      (∀ key, key ≠ "" → t.get str_hash fuel key = some (Model.get (Model.run ops []) key)) ∧
      t.get_last = Model.get_last (Model.run ops []) ∧
      t.get_first = Model.get_first (Model.run ops []) := by
  have r0 := RepInv.rep_new str_hash hC
  have u0 := used_new C
  obtain ⟨t, c, e, r, p, u⟩ := runOps_refines hfuel ops _ _ r0 hkeys (by omega)
  have p' : t.pairs c = Model.run ops [] := p
  have he : t.hasEmpty := hasEmpty_of_used_lt (by rw [r.index.size_eq]; omega)
  refine ⟨t, e, ?_, ?_, ?_, ?_⟩
  · rw [r.chain_eq, p']
  · intro key hk
    rw [← p']
    exact get_refines r he hk hfuel
  · rw [get_last_eq r.links, p']
  · rw [get_first_eq r.links, p']

/-- C14 (refinement of a recency-ordered association list), evaluated on the
code at a failing input.  Capacity 3, all keys colliding, the calls
`insert("x",1)`, `remove("x")`: both keys are non-empty and there is one
insert, fewer than 3.  The model is then the empty list, and the walk from
`head`, `get_last()` and `get_first()` agree with it; but `get("")`, for
which the model answers `-1` (absent), stops at the REMOVED slot 0, whose
cleared key is the empty string, and returns `0` as found. -/
theorem C14_get_empty_key_departs_from_model :
    ∃ t, runOps zeroHash 3 [Op.insert "x" 1, Op.remove "x"] (HashTable.new 3) = some t ∧
      (∀ op, op ∈ [Op.insert "x" 1, Op.remove "x"] → op.key ≠ "") ∧
      inserts [Op.insert "x" 1, Op.remove "x"] < 3 ∧
      Model.run [Op.insert "x" 1, Op.remove "x"] [] = [] ∧
      t.pairs t.chain = [] ∧ t.get_last = ("", -1) ∧ t.get_first = ("", -1) ∧
      Model.get (Model.run [Op.insert "x" 1, Op.remove "x"] []) "" = (-1, true) ∧
      t.get zeroHash 3 "" = some (0, false) ∧
      t.getInt zeroHash 3 "" = some (0, false) := by
  refine ⟨_, rfl, ?_, by decide, rfl, rfl, rfl, rfl, rfl, rfl, rfl⟩
  intro op hop
  simp only [List.mem_cons, List.mem_singleton, List.not_mem_nil, or_false] at hop
  rcases hop with rfl | rfl <;> decide

/-- Bounded probing where the index types allow it: on a table with at least
one EMPTY slot, for every key and every fuel at least the capacity, `insert`
and `remove` (whose index is a `size_t`) return after reading at most
`size` indices, all below `size`; `insert` then writes the pair at one of the
indices read and `remove` works on the last index read.  The same holds for
`get` with its `int` index when the capacity is at most `INT_MAX`. -/
theorem probing_bounded (str_hash : String → Nat) (t : HashTable) (k : String)
    (v : Int) (fuel : Nat) (hC : 1 ≤ t.size) (he : t.hasEmpty) (hfuel : t.size ≤ fuel) :
    (∃ t' rs, t.insert str_hash fuel k v = some t' ∧
      t.insertReads k fuel (str_hash k % t.size) = some rs ∧
      rs.length ≤ t.size ∧ (∀ i, i ∈ rs → i < t.size) ∧
      ∃ s, s ∈ rs ∧ (t' = t.insertAt s k v ∨ t' = t.updateAt s k v)) ∧
    (∃ r rs x, t.remove str_hash fuel k = some r ∧
      t.searchReads k fuel (str_hash k % t.size) = some rs ∧
      rs.length ≤ t.size ∧ (∀ i, i ∈ rs → i < t.size) ∧
      rs.getLast? = some x ∧ r = t.removeAt x) ∧
    (t.size ≤ INT_MAX → ∃ r rs x, t.getInt str_hash fuel k = some r ∧
      t.getIntReads k fuel (toInt32 ((str_hash k % t.size : Nat) : Int)) = some rs ∧
      rs.length ≤ t.size ∧ (∀ i, i ∈ rs → i < t.size) ∧
      rs.getLast? = some x ∧ r = t.getAt x) := by
  have hpos : 0 < t.size := hC
  refine ⟨?_, ?_, ?_⟩
  · obtain ⟨n, hn, hsn, hmin⟩ := first_stop_lt_size str_hash t k (t.insertStop k)
      (fun x hx => Or.inl hx) he
    obtain ⟨t', ht', hpost⟩ := insertLoop_of_stop str_hash t k v hpos n 0 t.size fuel
      (fun e _ he => hmin e (by omega)) (by rw [Nat.zero_add]; exact hsn) (by omega)
    have hreads := insertReads_of_stop str_hash t k n 0 fuel
      (fun e _ he => hmin e (by omega)) (by rw [Nat.zero_add]; exact hsn) (by omega)
    refine ⟨t', _, ht', hreads, ?_, ?_, ?_⟩
    · rw [List.length_map, List.length_range]; omega
    · intro i hi
      obtain ⟨e, -, rfl⟩ := List.mem_map.mp hi
      exact probe_lt str_hash t k _ hpos
    · rcases hpost with ⟨-, s, hs, -, hfr⟩ | ⟨-, hu⟩
      · obtain ⟨e, -, he2, hse, -, -⟩ := hfr rfl
        exact ⟨s, List.mem_map.mpr ⟨e, List.mem_range.mpr (by omega),
          by rw [Nat.zero_add]; exact hse.symm⟩, Or.inl hs⟩
      · exact ⟨_, List.mem_map.mpr ⟨n, List.mem_range.mpr (by omega), rfl⟩, Or.inr hu⟩
  · obtain ⟨x, rs, hrun, hreads, hlen, hlt, hlast⟩ := search_bounded str_hash t k fuel he hfuel
    refine ⟨t.removeAt x, rs, x, ?_, hreads, hlen, hlt, hlast, rfl⟩
    unfold HashTable.remove
    rw [hrun]; rfl
  · intro hmax
    obtain ⟨x, rs, hrun, hreads, hlen, hlt, hlast⟩ := search_bounded str_hash t k fuel he hfuel
    have hhome : str_hash k % t.size < t.size := Nat.mod_lt _ hpos
    refine ⟨t.getAt x, rs, x, ?_, ?_, hlen, hlt, hlast, rfl⟩
    · rw [getInt_eq_get str_hash fuel t k hpos hmax]
      unfold HashTable.get
      rw [hrun]; rfl
    · rw [toInt32_natCast _ (by omega), getIntReads_eq t k hmax fuel _ hhome]
      exact hreads

/-- C18 (bounded probing), evaluated on the code at a failing input.  On the
fresh table of capacity `2^32`, all of whose slots are EMPTY, and for a key
whose hash modulo the capacity is `2^31`, the `int idx` of `get` (line 145)
becomes `-2^31`, and the first slot read, `hash_table[idx]`, is at index
`2^64 - 2^31`, which is not below the capacity. -/
theorem C18_get_reads_out_of_range :
    1 ≤ (HashTable.new 4294967296).size ∧ (HashTable.new 4294967296).hasEmpty ∧
    toInt32 ((bigHash "k" % (HashTable.new 4294967296).size : Nat) : Int) = -2147483648 ∧
    (∀ fuel, (HashTable.new 4294967296).getIntReads "k" (fuel + 1)
        (toInt32 ((bigHash "k" % (HashTable.new 4294967296).size : Nat) : Int)) =
      some [18446744071562067968]) ∧
    ¬ 18446744071562067968 < (HashTable.new 4294967296).size := by
  have h1 : toInt32 ((bigHash "k" % (HashTable.new 4294967296).size : Nat) : Int) =
      -2147483648 := by
    rw [size_new]; decide
  have h2 : toSizeT (-2147483648) = 18446744071562067968 := by decide
  refine ⟨?_, ⟨0, ?_, ?_⟩, h1, ?_, ?_⟩
  · rw [size_new]; decide
  · rw [size_new]; decide
  · rw [node_new]
  · intro fuel
    rw [h1]
    simp only [getIntReads, h2, node_new]
    simp
  · rw [size_new]; decide

end OrderedHashTable
